import Mathlib

/-!
Verification of the badgateway Request Engine (src/main.rs): the transport
adapter (`send_request`), the cURL importer (`parse_curl`), the JSON
pretty-printer (`format_json`) and the JSON span tokenizer (`json_to_spans`).

Rust strings are modelled as Lean `String`/`List Char`; the scanner loops of
the source become structural or well-founded recursions over the character
list.  `serde_json` itself is not part of the repository's sources, so the
strict JSON parse / pretty re-serialization it performs is modelled from the
specification (see `JsonModel` below); everything else is translated directly
from `src/main.rs`.
-/

namespace BadGateway

/-! ## Rust string primitives -/

/-- Rust `char::is_whitespace`: the Unicode `White_Space` property, given
here by its code points. -/
def rustIsWhitespace (c : Char) : Bool :=
  let n := c.toNat
  n = 0x20 || n = 0x9 || n = 0xa || n = 0xb || n = 0xc || n = 0xd ||
  n = 0x85 || n = 0xa0 || n = 0x1680 ||
  (0x2000 <= n && n <= 0x200a) ||
  n = 0x2028 || n = 0x2029 || n = 0x202f || n = 0x205f || n = 0x3000

/-- Rust `str::trim` on a character list: strip Unicode whitespace from both
ends. -/
def rustTrimList (cs : List Char) : List Char :=
  ((cs.dropWhile rustIsWhitespace).reverse.dropWhile rustIsWhitespace).reverse

/-- Rust `str::trim`. -/
def rustTrim (s : String) : String :=
  String.mk (rustTrimList s.data)

/-- Helper for `rustLines`: split a character list at every `'\n'`,
remembering for each produced segment whether it was terminated by a
newline. -/
def splitNl : List Char → List (List Char × Bool)
  | [] => [([], false)]
  | c :: cs =>
    if c = '\n' then ([], true) :: splitNl cs
    else
      match splitNl cs with
      | [] => [([c], false)]
      | (seg, t) :: rest => (c :: seg, t) :: rest

/-- Strip one trailing `'\r'` from a newline-terminated segment (Rust strips
the `'\r'` only when it immediately precedes the `'\n'`). -/
def stripCr (seg : List Char) : List Char :=
  match seg.reverse with
  | '\r' :: rest => rest.reverse
  | _ => seg

/-- Rust `str::lines`: split on `'\n'`, strip a `'\r'` immediately preceding
each `'\n'`, and do not produce a final empty line for a trailing
terminator. -/
def rustLines (s : String) : List String :=
  let segs := splitNl s.data
  let segs := match segs.reverse with
    | ([], false) :: rest => rest.reverse
    | _ => segs
  segs.map fun (seg, t) => String.mk (if t then stripCr seg else seg)

/-- Worker for `splitOnceColon`: find the first `':'`, returning the
characters before it and the characters after it. -/
def splitOnceGo : List Char → Option (List Char × List Char)
  | [] => none
  | c :: rest =>
    if c = ':' then some ([], rest)
    else (splitOnceGo rest).map fun p => (c :: p.1, p.2)

/-- Rust `str::split_once(':')`: the text before the first `':'` and the text
after it, or `none` when the string contains no `':'`. -/
def splitOnceColon (s : String) : Option (String × String) :=
  (splitOnceGo s.data).map fun p => (String.mk p.1, String.mk p.2)

/-! ## UTF-8 and Base64 (used by the Basic-auth paths) -/

/-- UTF-8 encoding of one Unicode scalar value, as Rust's `String` byte
representation has it. -/
def utf8EncodeChar (c : Char) : List Nat :=
  let n := c.toNat
  if n < 0x80 then [n]
  else if n < 0x800 then
    [0xc0 + n / 0x40, 0x80 + n % 0x40]
  else if n < 0x10000 then
    [0xe0 + n / 0x1000, 0x80 + n / 0x40 % 0x40, 0x80 + n % 0x40]
  else
    [0xf0 + n / 0x40000, 0x80 + n / 0x1000 % 0x40, 0x80 + n / 0x40 % 0x40,
      0x80 + n % 0x40]

/-- UTF-8 bytes of a string. -/
def utf8Encode (s : String) : List Nat :=
  s.data.flatMap utf8EncodeChar

/-- The Base64 standard alphabet, by 6-bit index. -/
def base64Char (n : Nat) : Char :=
  if n < 26 then Char.ofNat (65 + n)
  else if n < 52 then Char.ofNat (97 + (n - 26))
  else if n < 62 then Char.ofNat (48 + (n - 52))
  else if n = 62 then '+'
  else '/'

/-- Base64-encode a byte list with standard alphabet and `=` padding
(`base64::engine::general_purpose::STANDARD.encode`). -/
def base64Encode : List Nat → List Char
  | b0 :: b1 :: b2 :: rest =>
    base64Char (b0 / 4) :: base64Char (b0 % 4 * 16 + b1 / 16) ::
      base64Char (b1 % 16 * 4 + b2 / 64) :: base64Char (b2 % 64) ::
      base64Encode rest
  | [b0, b1] =>
    [base64Char (b0 / 4), base64Char (b0 % 4 * 16 + b1 / 16),
      base64Char (b1 % 16 * 4), '=']
  | [b0] =>
    [base64Char (b0 / 4), base64Char (b0 % 4 * 16), '=', '=']
  | [] => []

/-- The 6-bit value of one Base64 alphabet character, `none` for a character
outside the alphabet. -/
def base64Val (c : Char) : Option Nat :=
  if 'A' ≤ c ∧ c ≤ 'Z' then some (c.toNat - 65)
  else if 'a' ≤ c ∧ c ≤ 'z' then some (c.toNat - 97 + 26)
  else if '0' ≤ c ∧ c ≤ '9' then some (c.toNat - 48 + 52)
  else if c = '+' then some 62
  else if c = '/' then some 63
  else none

/-- Decode the 4-character groups of a canonically padded Base64 string;
`none` on any character outside the alphabet, bad padding, or nonzero unused
trailing bits (the checks `STANDARD` decoding performs). -/
def base64DecodeGroups : List Char → Option (List Nat)
  | [] => some []
  | [c0, c1, '=', '='] => do
    let v0 ← base64Val c0
    let v1 ← base64Val c1
    if v1 % 16 = 0 then some [v0 * 4 + v1 / 16] else none
  | [c0, c1, c2, '='] => do
    let v0 ← base64Val c0
    let v1 ← base64Val c1
    let v2 ← base64Val c2
    if v2 % 4 = 0 then some [v0 * 4 + v1 / 16, v1 % 16 * 16 + v2 / 4]
    else none
  | c0 :: c1 :: c2 :: c3 :: rest => do
    let v0 ← base64Val c0
    let v1 ← base64Val c1
    let v2 ← base64Val c2
    let v3 ← base64Val c3
    let tail ← base64DecodeGroups rest
    some ((v0 * 4 + v1 / 16) :: (v1 % 16 * 16 + v2 / 4) :: (v2 % 4 * 64 + v3) :: tail)
  | _ => none

/-- Base64-decode (`STANDARD` engine: canonical padding required). -/
def base64Decode (s : String) : Option (List Nat) :=
  base64DecodeGroups s.data

/-- Decode one UTF-8 sequence from the front of a byte list: the scalar value
and the remaining bytes, or `none` when the bytes are not valid strict UTF-8
(overlong forms, surrogates and out-of-range values rejected, as Rust's
`String::from_utf8` rejects them). -/
def utf8DecodeOne : List Nat → Option (Char × List Nat)
  | [] => none
  | b0 :: rest =>
    if b0 < 0x80 then
      some (Char.ofNat b0, rest)
    else if b0 < 0xc2 then none
    else if b0 < 0xe0 then
      match rest with
      | b1 :: rest1 =>
        if 0x80 ≤ b1 ∧ b1 < 0xc0 then
          some (Char.ofNat ((b0 - 0xc0) * 0x40 + (b1 - 0x80)), rest1)
        else none
      | _ => none
    else if b0 < 0xf0 then
      match rest with
      | b1 :: b2 :: rest2 =>
        if 0x80 ≤ b1 ∧ b1 < 0xc0 ∧ 0x80 ≤ b2 ∧ b2 < 0xc0 then
          let n := (b0 - 0xe0) * 0x1000 + (b1 - 0x80) * 0x40 + (b2 - 0x80)
          if 0x800 ≤ n ∧ ¬(0xd800 ≤ n ∧ n < 0xe000) then
            some (Char.ofNat n, rest2)
          else none
        else none
      | _ => none
    else if b0 < 0xf5 then
      match rest with
      | b1 :: b2 :: b3 :: rest3 =>
        if 0x80 ≤ b1 ∧ b1 < 0xc0 ∧ 0x80 ≤ b2 ∧ b2 < 0xc0 ∧ 0x80 ≤ b3 ∧ b3 < 0xc0 then
          let n := (b0 - 0xf0) * 0x40000 + (b1 - 0x80) * 0x1000 +
            (b2 - 0x80) * 0x40 + (b3 - 0x80)
          if 0x10000 ≤ n ∧ n < 0x110000 then
            some (Char.ofNat n, rest3)
          else none
        else none
      | _ => none
    else none

/-- Decode a whole byte list as strict UTF-8 (`String::from_utf8`).  The
fuel argument of the worker is an upper bound on the number of decoded
characters; `utf8DecodeOne` always consumes at least one byte, so the byte
count suffices. -/
def utf8DecodeGo : Nat → List Nat → Option (List Char)
  | _, [] => some []
  | 0, _ :: _ => none
  | fuel + 1, bs => do
    let (c, rest) ← utf8DecodeOne bs
    let tail ← utf8DecodeGo fuel rest
    some (c :: tail)

/-- Decode a byte list as strict UTF-8 (`String::from_utf8`). -/
def utf8Decode (bs : List Nat) : Option (List Char) :=
  utf8DecodeGo bs.length bs

/-! ## Data model: methods and auth (src/main.rs lines 49-106) -/

/-- The seven HTTP verbs of `enum Method`; `GET` is the `#[default]`. -/
inductive Method
  | GET | POST | PUT | PATCH | DELETE | HEAD | OPTIONS
deriving DecidableEq, Repr

/-- The `enum AuthType` variants; `None` is the `#[default]`. -/
inductive AuthType
  | None | Bearer | Basic
deriving DecidableEq, Repr

/-! ## Transport adapter: `send_request` (src/main.rs lines 1353-1431)

The network call itself is outside a shallow embedding; what is embedded is
the pure request construction the function performs (verb, `Authorization`
header synthesis, header-line application, body attachment) and the order of
its effectful steps, taken from the statement order of the source. -/

/-- One outgoing header as a (name, value) pair. -/
abbrev Header := String × String

/-- The `Authorization` header synthesized from the auth fields, exactly as
the `match auth_type` block of `send_request` builds it: nothing for `None`,
`Bearer <token>` when the token is non-empty, `Basic <base64(user:pass)>`
when the username is non-empty. -/
def authHeaders (auth_type : AuthType) (auth_token auth_username auth_password : String) :
    List Header :=
  match auth_type with
  | AuthType.None => []
  | AuthType.Bearer =>
    if auth_token ≠ "" then [("Authorization", "Bearer " ++ auth_token)] else []
  | AuthType.Basic =>
    if auth_username ≠ "" then
      [("Authorization",
        "Basic " ++ String.mk (base64Encode (utf8Encode (auth_username ++ ":" ++ auth_password))))]
    else []

/-- The headers contributed by the free-text header lines: for each line of
`headers_str`, `split_once(':')` and trim both sides; lines without a `':'`
are skipped (`send_request`, the `for line in headers_str.lines()` loop). -/
def lineHeaders (headers_str : String) : List Header :=
  (rustLines headers_str).filterMap fun line =>
    (splitOnceColon line).map fun kv => (rustTrim kv.1, rustTrim kv.2)

/-- The body attached to the outgoing request: `some body` exactly when the
`matches!(method, POST | PUT | PATCH) && !body.is_empty()` guard of
`send_request` holds. -/
def attachedBody (method : Method) (body : String) : Option String :=
  if (method = Method.POST ∨ method = Method.PUT ∨ method = Method.PATCH) ∧ body ≠ "" then
    some body
  else none

/-- The outgoing request assembled by `send_request` before it is sent. -/
structure BuiltRequest where
  method : Method
  url : String
  headers : List Header
  body : Option String
deriving DecidableEq, Repr

/-- Pure request construction of `send_request`: the verb and URL, the
auth-derived header followed by every parsed header line, and the body under
the attachment guard. -/
def send_request_built (url : String) (method : Method) (body headers_str : String)
    (auth_type : AuthType) (auth_token auth_username auth_password : String) : BuiltRequest :=
  { method := method
    url := url
    headers := authHeaders auth_type auth_token auth_username auth_password ++
      lineHeaders headers_str
    body := attachedBody method body }

/-- The effectful steps of `send_request`, in the order the source performs
them. -/
inductive SendEvent
  | captureStart      -- `let start = StdInstant::now();`            (line 1364)
  | createClient      -- `let client = reqwest::Client::new();`      (line 1365)
  | buildVerb         -- `let mut builder = match method ...`        (line 1367)
  | applyAuth         -- `match auth_type ...`                       (line 1378)
  | applyHeaderLines  -- `for line in headers_str.lines() ...`       (line 1394)
  | attachBody        -- `if matches!(method, ...) ...`              (line 1400)
  | sendAwait         -- `builder.send().await`                      (line 1404)
  | captureDuration   -- `let duration = start.elapsed();`           (line 1405)
  | readStatus        -- `response.status()`                         (line 1407)
  | readHeaderPairs   -- `response.headers()`                        (line 1414)
  | readBodyText      -- `response.text().await`                     (line 1420)
deriving DecidableEq, Repr

/-- The statement order of `send_request`. -/
def send_request_events : List SendEvent :=
  [SendEvent.captureStart, SendEvent.createClient, SendEvent.buildVerb,
   SendEvent.applyAuth, SendEvent.applyHeaderLines, SendEvent.attachBody,
   SendEvent.sendAwait, SendEvent.captureDuration, SendEvent.readStatus,
   SendEvent.readHeaderPairs, SendEvent.readBodyText]

/-- Position of a step in `send_request`. -/
def eventIndex (e : SendEvent) : Nat :=
  send_request_events.indexOf e

/-- Step `a` happens before step `b` in `send_request`. -/
def happensBefore (a b : SendEvent) : Prop :=
  eventIndex a < eventIndex b

instance (a b : SendEvent) : Decidable (happensBefore a b) := by
  unfold happensBefore; infer_instance

/-! ## cURL importer: `parse_curl` (src/main.rs lines 1582-1734) -/

/-- Result of the importer, mirroring `struct ParsedCurl`: the auth field is
the source's `Option<(AuthType, String, String, String)>` holding
(type, token, user, pass). -/
structure ParsedCurl where
  url : String
  method : Method
  headers : String
  body : String
  auth : Option (AuthType × String × String × String)
deriving DecidableEq, Repr

/-- The shell-like tokenizer loop of `parse_curl`, carried through the
`in_quotes`/`quote_char`/`current` state of the source: quotes toggle
(opening quote sets the closing character and neither quote lands in the
token), unquoted space/newline/tab separate tokens, every unquoted
backslash is dropped, everything else joins the current token. -/
def curlTokensGo : List Char → Bool → Char → List Char → List String
  | [], _, _, current =>
    if current.isEmpty then [] else [String.mk current]
  | ch :: rest, inQuotes, quoteChar, current =>
    if (ch = '"' ∨ ch.toNat = 39) ∧ ¬inQuotes then
      curlTokensGo rest true ch current
    else if ch = quoteChar ∧ inQuotes then
      curlTokensGo rest false quoteChar current
    else if (ch = ' ' ∨ ch = '\n' ∨ ch = '\t') ∧ ¬inQuotes then
      if current.isEmpty then curlTokensGo rest inQuotes quoteChar []
      else String.mk current :: curlTokensGo rest inQuotes quoteChar []
    else if ch = '\\' ∧ ¬inQuotes then
      curlTokensGo rest inQuotes quoteChar current
    else
      curlTokensGo rest inQuotes quoteChar (current ++ [ch])

/-- Tokens of a (pre-trimmed) cURL command line; `quote_char` starts as `'"'`
as in the source. -/
def curlTokens (input : String) : List String :=
  curlTokensGo input.data false '"' []

/-- ASCII lowercasing of a string.  The source calls Rust
`str::to_lowercase`; the strings compared against (`authorization:`,
`bearer `, `basic `) are ASCII, where the two agree. -/
def lowerAscii (s : String) : String :=
  String.mk (s.data.map Char.toLower)

/-- ASCII uppercasing of a string.  The source calls Rust
`str::to_uppercase`; the seven verb names compared against are ASCII, where
the two agree. -/
def upperAscii (s : String) : String :=
  String.mk (s.data.map Char.toUpper)

/-- Rust `str::starts_with`: a prefix test, expressed on the character
list (the prefixes compared against are ASCII, where bytes and characters
agree). -/
def strStartsWith (s pre : String) : Bool :=
  pre.data.isPrefixOf s.data

/-- Verb selection of the `-X`/`--request` branch: case-insensitive exact
match against the seven verbs, anything else falling back to `GET`. -/
def methodOfToken (t : String) : Method :=
  if upperAscii t = "GET" then Method.GET
  else if upperAscii t = "POST" then Method.POST
  else if upperAscii t = "PUT" then Method.PUT
  else if upperAscii t = "PATCH" then Method.PATCH
  else if upperAscii t = "DELETE" then Method.DELETE
  else if upperAscii t = "HEAD" then Method.HEAD
  else if upperAscii t = "OPTIONS" then Method.OPTIONS
  else Method.GET

/-- Rust `s.splitn(2, ':').nth(1).unwrap_or("")`: the text after the first
`':'`, or the empty string when there is none. -/
def afterFirstColon (s : String) : String :=
  match s.data.dropWhile (fun c => ¬ c = ':') with
  | ':' :: tail => String.mk tail
  | _ => ""

/-- Rust `str::split_once(':')` as used on credential strings. -/
def splitOnceColonPair (s : String) : Option (String × String) :=
  splitOnceColon s

/-- Scan state of the `parse_curl` flag loop (the `url`/`method`/`headers`/
`body`/`auth` locals of the source). -/
structure CurlState where
  url : String
  method : Method
  headers : List String
  body : String
  auth : Option (AuthType × String × String × String)
deriving DecidableEq, Repr

/-- Initial scan state: empty URL, `GET`, no headers, empty body, no auth. -/
def curlInit : CurlState :=
  { url := "", method := Method.GET, headers := [], body := "", auth := none }

/-- The `-H`/`--header` branch applied to one header token: an
`Authorization` header (case-insensitive) is inspected for a `Bearer ` or
`Basic ` value; a decodable `Basic` value becomes Basic auth, a `Bearer `
value becomes Bearer auth, and every other header token is appended to the
headers accumulator.  A `Basic` value that fails Base64 or UTF-8 decoding or
has no `':'` is dropped entirely. -/
def applyHeaderToken (st : CurlState) (header : String) : CurlState :=
  if strStartsWith (lowerAscii header) ("authorization:") then
    let value := rustTrim (afterFirstColon header)
    if strStartsWith (lowerAscii value) ("bearer ") then
      { st with auth := some (AuthType.Bearer, String.mk (value.data.drop 7), "", "") }
    else if strStartsWith (lowerAscii value) ("basic ") then
      match base64Decode (rustTrim (String.mk (value.data.drop 6))) with
      | some bytes =>
        match utf8Decode bytes with
        | some creds =>
          match splitOnceColonPair (String.mk creds) with
          | some (user, pass) => { st with auth := some (AuthType.Basic, "", user, pass) }
          | none => st
        | none => st
      | none => st
    else { st with headers := st.headers ++ [header] }
  else { st with headers := st.headers ++ [header] }

/-- The `-u`/`--user` branch applied to one credentials token: split on the
first `':'` into Basic auth, or do nothing when there is no `':'`. -/
def applyUserToken (st : CurlState) (creds : String) : CurlState :=
  match splitOnceColonPair creds with
  | some (user, pass) => { st with auth := some (AuthType.Basic, "", user, pass) }
  | none => st

/-- Is this one of the four body flags? -/
def isDataFlag (t : String) : Prop :=
  t = "-d" ∨ t = "--data" ∨ t = "--data-raw" ∨ t = "--data-binary"

instance (t : String) : Decidable (isDataFlag t) := by
  unfold isDataFlag; infer_instance

/-- The flag scan of `parse_curl`: one left-to-right pass over the tokens.
A recognized flag with a following token consumes that token as its value
(the source's `i += 1`); a flag that is the last token does nothing; a bare
token beginning with `http://` or `https://` sets the URL (last one wins);
all other tokens are ignored. -/
def parse_curl_scan : List String → CurlState → CurlState
  | [], st => st
  | token :: rest, st =>
    if token = "-X" ∨ token = "--request" then
      match rest with
      | value :: rest2 => parse_curl_scan rest2 { st with method := methodOfToken value }
      | [] => st
    else if token = "-H" ∨ token = "--header" then
      match rest with
      | header :: rest2 => parse_curl_scan rest2 (applyHeaderToken st header)
      | [] => st
    else if isDataFlag token then
      match rest with
      | value :: rest2 =>
        parse_curl_scan rest2
          { st with body := value
                    method := if st.method = Method.GET then Method.POST else st.method }
      | [] => st
    else if token = "-u" ∨ token = "--user" then
      match rest with
      | creds :: rest2 => parse_curl_scan rest2 (applyUserToken st creds)
      | [] => st
    else if strStartsWith token ("http://") ∨ strStartsWith token ("https://") then
      parse_curl_scan rest { st with url := token }
    else
      parse_curl_scan rest st

/-- The cURL importer `parse_curl`: trim, require the `curl` prefix,
tokenize, scan, and fail when no URL was captured. -/
def parse_curl (input : String) : Option ParsedCurl :=
  let input := rustTrim input
  if ¬ strStartsWith input ("curl") then none
  else
    let st := parse_curl_scan (curlTokens input) curlInit
    if st.url = "" then none
    else
      some { url := st.url, method := st.method,
             headers := String.intercalate "\n" st.headers,
             body := st.body, auth := st.auth }

/-- The tokens the flag loop recognizes as flags (each would consume the
following token as its value). -/
def isFlagToken (t : String) : Prop :=
  t = "-X" ∨ t = "--request" ∨ t = "-H" ∨ t = "--header" ∨ isDataFlag t ∨
    t = "-u" ∨ t = "--user"

instance (t : String) : Decidable (isFlagToken t) := by
  unfold isFlagToken; infer_instance

/-- Does the flag scan ever reach a token beginning with `http://` or
`https://` in examining position?  Tokens consumed as flag values are
skipped, exactly as the scan skips them. -/
def scanSeesUrl : List String → Bool
  | [] => false
  | token :: rest =>
    if isFlagToken token then
      match rest with
      | _ :: rest2 => scanSeesUrl rest2
      | [] => false
    else
      (strStartsWith token ("http://") || strStartsWith token ("https://")) || scanSeesUrl rest

/-! ## JSON span tokenizer: the scanner of `json_to_spans`
(src/main.rs lines 1441-1544)

The source pushes `iced` text spans with a color per class; the colors are
abstracted to the style classes they encode: `TEXT_PRIMARY` is plain text,
`ACCENT_PURPLE` a key, `SUCCESS` a string value, `ACCENT_CORAL` a number,
`WARNING` a keyword, `TEXT_SECONDARY` punctuation. -/

/-- Style class of one span. -/
inductive SpanClass
  | plain | key | str | number | keyword | punctuation
deriving DecidableEq, Repr

/-- One emitted span: a text fragment and its style class. -/
structure Span where
  text : String
  cls : SpanClass
deriving DecidableEq, Repr

/-- The string-reading inner loop of the `'"'` branch: push every character
up to and including the closing quote, a backslash also pushing the
character after it verbatim (the flag records that the previous character
was an unconsumed backslash, so the current character is pushed without
inspection).  Returns the pushed characters (without the opening quote) and
the remaining input. -/
def readStringGo : List Char → Bool → List Char × List Char
  | [], _ => ([], [])
  | c :: rest, esc =>
    if esc then
      let p := readStringGo rest false
      (c :: p.1, p.2)
    else if c = '"' then ([c], rest)
    else if c = '\\' then
      let p := readStringGo rest true
      (c :: p.1, p.2)
    else
      let p := readStringGo rest false
      (c :: p.1, p.2)

/-- The string body read from `cs`, no escape pending. -/
def readStringBody (cs : List Char) : List Char × List Char :=
  readStringGo cs false

/-- Characters the number branch keeps consuming after its first character:
ASCII digits, `.`, `e`, `E`, `+`, `-`. -/
def isNumCont (c : Char) : Bool :=
  c.isDigit || c = '.' || c = 'e' || c = 'E' || c = '+' || c = '-'

/-- The keyword branch's one-character-at-a-time match of the expected
remaining literal characters: stops at the first mismatch, returning the
matched prefix and the remaining input. -/
def munchExpected : List Char → List Char → List Char × List Char
  | [], cs => ([], cs)
  | _ :: _, [] => ([], [])
  | e :: es, c :: cs =>
    if c = e then
      let p := munchExpected es cs
      (c :: p.1, p.2)
    else ([], c :: cs)

/-- The one-character lookahead after a closed string: skip whitespace and
test whether the next character is `':'` (then the string was a key). -/
def isKeyLookahead (cs : List Char) : Bool :=
  (cs.dropWhile rustIsWhitespace).head? = some ':'

/-- Flush of the pending plain-text buffer: one plain span when non-empty. -/
def flushCurrent (current : List Char) : List Span :=
  if current.isEmpty then [] else [⟨String.mk current, SpanClass.plain⟩]

theorem dropWhile_length_le (p : Char → Bool) (l : List Char) :
    (l.dropWhile p).length ≤ l.length := by
  induction l with
  | nil => simp
  | cons c cs ih =>
    simp only [List.dropWhile]
    split
    · simp only [List.length_cons]; omega
    · simp

theorem readStringGo_snd_length_le (cs : List Char) :
    ∀ esc, (readStringGo cs esc).2.length ≤ cs.length := by
  induction cs with
  | nil => intro esc; simp [readStringGo]
  | cons c rest ih =>
    intro esc
    simp only [readStringGo]
    split
    · have := ih false; simp only [List.length_cons]; omega
    · split
      · simp
      · split
        · have := ih true; simp only [List.length_cons]; omega
        · have := ih false; simp only [List.length_cons]; omega

theorem munchExpected_snd_length_le (es cs : List Char) :
    (munchExpected es cs).2.length ≤ cs.length := by
  induction es generalizing cs with
  | nil => simp [munchExpected]
  | cons e es ih =>
    cases cs with
    | nil => simp [munchExpected]
    | cons c cs =>
      simp only [munchExpected]
      split
      · have := ih cs; simp only [List.length_cons]; omega
      · simp

/-- The scanner loop of `json_to_spans`, carried through the pending
plain-text buffer `current`: strings (classified key or string by the
lookahead), numbers, keyword attempts, single-character punctuation, and
plain accumulation, each classified span preceded by a flush of the pending
buffer, with one final flush at end of input. -/
def jsonSpansGo : List Char → List Char → List Span
  | [], current => flushCurrent current
  | ch :: rest, current =>
    if ch = '"' then
      let sb := readStringBody rest
      let cls := if isKeyLookahead sb.2 then SpanClass.key else SpanClass.str
      flushCurrent current ++ (⟨String.mk ('"' :: sb.1), cls⟩ :: jsonSpansGo sb.2 [])
    else if ch.isDigit || ch = '-' then
      flushCurrent current ++
        (⟨String.mk (ch :: rest.takeWhile isNumCont), SpanClass.number⟩ ::
          jsonSpansGo (rest.dropWhile isNumCont) [])
    else if ch = 't' || ch = 'f' || ch = 'n' then
      let expected := if ch = 't' then "rue".data else if ch = 'f' then "alse".data else "ull".data
      let mk := munchExpected expected rest
      let kw := ch :: mk.1
      let cls :=
        if kw = "true".data || kw = "false".data || kw = "null".data then SpanClass.keyword
        else SpanClass.plain
      flushCurrent current ++ (⟨String.mk kw, cls⟩ :: jsonSpansGo mk.2 [])
    else if ch = '{' || ch = '}' || ch = '[' || ch = ']' || ch = ':' || ch = ',' then
      flushCurrent current ++ (⟨String.mk [ch], SpanClass.punctuation⟩ :: jsonSpansGo rest [])
    else
      jsonSpansGo rest (current ++ [ch])
termination_by cs _ => cs.length
decreasing_by
  · have := readStringGo_snd_length_le rest false
    simp only [readStringBody] at *
    simp only [List.length_cons]
    omega
  · have := dropWhile_length_le isNumCont rest
    simp only [List.length_cons]
    omega
  · have h1 := munchExpected_snd_length_le ['r', 'u', 'e'] rest
    have h2 := munchExpected_snd_length_le ['a', 'l', 's', 'e'] rest
    have h3 := munchExpected_snd_length_le ['u', 'l', 'l'] rest
    simp only [List.length_cons]
    split <;> (try split) <;> omega
  · simp only [List.length_cons]
    omega
  · simp only [List.length_cons]
    omega

/-! ## JSON model

Modelled from the spec: the strict JSON parse and canonical multi-line
re-serialization that `format_json` delegates to `serde_json::from_str` /
`serde_json::to_string_pretty` — code that is not part of this repository's
sources.  Following the spec's words (SS4.3): a strict JSON parse; an
insertion-ordered mapping for objects (keys kept in the order they first
appear, a repeated key replacing the stored value in place); multi-line,
two-space-indented re-serialization.  The spec says nothing about numeric
normalization, so numbers keep their source lexeme. -/

mutual

/-- JSON values; objects are insertion-ordered member sequences. -/
inductive JValue
  | jnull
  | jbool (b : Bool)
  | jnum (lexeme : String)
  | jstr (s : String)
  | jarr (items : JItems)
  | jobj (members : JMembers)

/-- Sequence of array items. -/
inductive JItems
  | inil
  | icons (v : JValue) (rest : JItems)

/-- Insertion-ordered sequence of object members. -/
inductive JMembers
  | mnil
  | mcons (k : String) (v : JValue) (rest : JMembers)
end

/-- Keys of a member sequence, in stored order. -/
def mkeys : JMembers → List String
  | JMembers.mnil => []
  | JMembers.mcons k _ rest => k :: mkeys rest

/-- Mapping insert: a key already present has its value replaced in place
(keeping its position); a new key is appended. -/
def minsert : JMembers → String → JValue → JMembers
  | JMembers.mnil, k, v => JMembers.mcons k v JMembers.mnil
  | JMembers.mcons k0 v0 rest, k, v =>
    if k0 = k then JMembers.mcons k0 v rest
    else JMembers.mcons k0 v0 (minsert rest k v)

/-- Build the insertion-ordered mapping from members in source order. -/
def buildMembers (raw : List (String × JValue)) : JMembers :=
  raw.foldl (fun acc kv => minsert acc kv.1 kv.2) JMembers.mnil

/-! ### Canonical pretty printer -/

/-- Lowercase hex digit. -/
def hexDigit (n : Nat) : Char :=
  if n < 10 then Char.ofNat (48 + n) else Char.ofNat (87 + n)

/-- String-literal escaping on output: `"` and backslash escaped, the five
short control escapes, other control characters as `\u00XX`, everything
else verbatim. -/
def escapeChar (c : Char) : List Char :=
  if c = '"' then ['\\', '"']
  else if c = '\\' then ['\\', '\\']
  else if c.toNat = 8 then ['\\', 'b']
  else if c.toNat = 9 then ['\\', 't']
  else if c.toNat = 10 then ['\\', 'n']
  else if c.toNat = 12 then ['\\', 'f']
  else if c.toNat = 13 then ['\\', 'r']
  else if c.toNat < 0x20 then
    ['\\', 'u', '0', '0', hexDigit (c.toNat / 16), hexDigit (c.toNat % 16)]
  else [c]

/-- Escaped characters of a string body. -/
def escChars (cs : List Char) : List Char :=
  cs.flatMap escapeChar

/-- Two spaces of indentation per nesting level. -/
def indentChars (d : Nat) : List Char :=
  List.replicate (2 * d) ' '

mutual

/-- Canonical pretty text of a value at nesting depth `d`. -/
def prettyValue : JValue → Nat → List Char
  | JValue.jnull, _ => "null".data
  | JValue.jbool true, _ => "true".data
  | JValue.jbool false, _ => "false".data
  | JValue.jnum lexeme, _ => lexeme.data
  | JValue.jstr s, _ => '"' :: (escChars s.data ++ ['"'])
  | JValue.jarr JItems.inil, _ => ['[', ']']
  | JValue.jarr (JItems.icons v rest), d =>
    '[' :: '\n' :: (indentChars (d + 1) ++ prettyValue v (d + 1) ++
      prettyItemsRest rest (d + 1) ++ '\n' :: (indentChars d ++ [']']))
  | JValue.jobj JMembers.mnil, _ => ['\x7b', '\x7d']
  | JValue.jobj (JMembers.mcons k v rest), d =>
    '\x7b' :: '\n' :: (indentChars (d + 1) ++ prettyMember k v (d + 1) ++
      prettyMembersRest rest (d + 1) ++ '\n' :: (indentChars d ++ ['\x7d']))

/-- Remaining array items, each preceded by a comma, newline and
indentation. -/
def prettyItemsRest : JItems → Nat → List Char
  | JItems.inil, _ => []
  | JItems.icons v rest, d =>
    ',' :: '\n' :: (indentChars d ++ prettyValue v d ++ prettyItemsRest rest d)

/-- One object member: quoted escaped key, colon, space, value. -/
def prettyMember (k : String) (v : JValue) (d : Nat) : List Char :=
  '"' :: (escChars k.data ++ ['"', ':', ' '] ++ prettyValue v d)

/-- Remaining object members, each preceded by a comma, newline and
indentation. -/
def prettyMembersRest : JMembers → Nat → List Char
  | JMembers.mnil, _ => []
  | JMembers.mcons k v rest, d =>
    ',' :: '\n' :: (indentChars d ++ prettyMember k v d ++ prettyMembersRest rest d)

end

/-! ### Strict parser -/

/-- JSON whitespace: space, tab, line feed, carriage return. -/
def isJsonWs (c : Char) : Bool :=
  c = ' ' || c = '\t' || c = '\n' || c = '\r'

/-- Skip JSON whitespace. -/
def wsSkip (cs : List Char) : List Char :=
  cs.dropWhile isJsonWs

/-- Consume an exact literal. -/
def expectLit (lit cs : List Char) : Option (List Char) :=
  if lit.isPrefixOf cs then some (cs.drop lit.length) else none

/-- Value of one hex digit. -/
def parseHex (c : Char) : Option Nat :=
  if '0' ≤ c ∧ c ≤ '9' then some (c.toNat - 48)
  else if 'a' ≤ c ∧ c ≤ 'f' then some (c.toNat - 87)
  else if 'A' ≤ c ∧ c ≤ 'F' then some (c.toNat - 55)
  else none

/-- Four hex digits. -/
def take4Hex : List Char → Option (Nat × List Char)
  | h1 :: h2 :: h3 :: h4 :: rest => do
    let d1 ← parseHex h1
    let d2 ← parseHex h2
    let d3 ← parseHex h3
    let d4 ← parseHex h4
    some (d1 * 0x1000 + d2 * 0x100 + d3 * 0x10 + d4, rest)
  | _ => none

theorem expectLit_append (lit cs r : List Char) (h : expectLit lit cs = some r) :
    cs = lit ++ r := by
  unfold expectLit at h
  split_ifs at h with hp
  · rw [List.isPrefixOf_iff_prefix] at hp
    obtain ⟨t, rfl⟩ := hp
    simp only [List.drop_left, Option.some.injEq] at h
    rw [h]

theorem take4Hex_length (l : List Char) (n : Nat) (r : List Char)
    (h : take4Hex l = some (n, r)) : l.length = r.length + 4 := by
  match l with
  | h1 :: h2 :: h3 :: h4 :: rest =>
    simp only [take4Hex, Option.bind_eq_bind, Option.bind_eq_some] at h
    obtain ⟨d1, -, d2, -, d3, -, d4, -, h4'⟩ := h
    simp only [Option.some.injEq, Prod.mk.injEq] at h4'
    obtain ⟨-, rfl⟩ := h4'
    simp
  | [] => simp [take4Hex] at h
  | [a] => simp [take4Hex] at h
  | [a, b] => simp [take4Hex] at h
  | [a, b, c] => simp [take4Hex] at h

/-- A `\uXXXX` escape (input begins after the `u`): four hex digits, a high
surrogate requiring a following `\uXXXX` low surrogate (combined into one
scalar value), a lone low surrogate rejected. -/
def parseUnicodeEscape (rest : List Char) : Option (Char × List Char) :=
  match take4Hex rest with
  | none => none
  | some (n, rest4) =>
    if 0xd800 ≤ n ∧ n ≤ 0xdbff then
      match expectLit ['\\', 'u'] rest4 with
      | none => none
      | some rest5 =>
        match take4Hex rest5 with
        | none => none
        | some (lo, rest9) =>
          if 0xdc00 ≤ lo ∧ lo ≤ 0xdfff then
            some (Char.ofNat (0x10000 + (n - 0xd800) * 0x400 + (lo - 0xdc00)), rest9)
          else none
    else if 0xdc00 ≤ n ∧ n ≤ 0xdfff then none
    else some (Char.ofNat n, rest4)

theorem parseUnicodeEscape_length (rest : List Char) (c : Char) (r : List Char)
    (h : parseUnicodeEscape rest = some (c, r)) : r.length + 4 ≤ rest.length := by
  unfold parseUnicodeEscape at h
  rcases h4 : take4Hex rest with - | ⟨n, rest4⟩ <;> rw [h4] at h
  · simp at h
  · have l4 := take4Hex_length rest n rest4 h4
    simp only at h
    split_ifs at h with hs1 hs2
    · rcases h5 : expectLit ['\\', 'u'] rest4 with - | rest5 <;> rw [h5] at h
      · simp at h
      · have l5 := expectLit_append ['\\', 'u'] rest4 rest5 h5
        simp only at h
        rcases h9 : take4Hex rest5 with - | ⟨lo, rest9⟩ <;> rw [h9] at h
        · simp at h
        · have l9 := take4Hex_length rest5 lo rest9 h9
          simp only at h
          split_ifs at h
          simp only [Option.some.injEq, Prod.mk.injEq] at h
          rw [h.2] at l9
          have : rest4.length = rest5.length + 2 := by rw [l5]; simp
          omega
    · obtain ⟨-, rfl⟩ := h
      omega

/-- One escape sequence (input begins after the backslash): the short
escapes, and `\uXXXX` via `parseUnicodeEscape`. -/
def parseEscape : List Char → Option (Char × List Char)
  | [] => none
  | e :: rest =>
    if e = '"' then some ('"', rest)
    else if e = '\\' then some ('\\', rest)
    else if e = '/' then some ('/', rest)
    else if e = 'b' then some (Char.ofNat 8, rest)
    else if e = 'f' then some (Char.ofNat 12, rest)
    else if e = 'n' then some ('\n', rest)
    else if e = 'r' then some ('\r', rest)
    else if e = 't' then some ('\t', rest)
    else if e = 'u' then parseUnicodeEscape rest
    else none

theorem parseEscape_length_lt (cs : List Char) (c : Char) (rest : List Char)
    (h : parseEscape cs = some (c, rest)) : rest.length < cs.length := by
  match cs with
  | [] => simp [parseEscape] at h
  | e :: tail =>
    simp only [parseEscape] at h
    simp only [List.length_cons]
    split_ifs at h
    all_goals first
      | (have hl := parseUnicodeEscape_length tail c rest h; omega)
      | (simp only [Option.some.injEq, Prod.mk.injEq] at h
         have ht : tail = rest := h.2
         subst ht
         omega)
      | (obtain ⟨-, h2⟩ := h
         subst h2
         omega)
      | simp at h

/-- Decoded body of a string literal (input begins after the opening quote):
unescaped control characters are rejected, a backslash defers to
`parseEscape`, the closing quote ends the literal. -/
def parseStringLit (cs : List Char) : Option (List Char × List Char) :=
  match cs with
  | [] => none
  | c :: rest =>
    if c = '"' then some ([], rest)
    else if c = '\\' then
      match he : parseEscape rest with
      | some (ch, r) =>
        match parseStringLit r with
        | some (body, rest2) => some (ch :: body, rest2)
        | none => none
      | none => none
    else if c.toNat < 0x20 then none
    else
      match parseStringLit rest with
      | some (body, rest2) => some (c :: body, rest2)
      | none => none
termination_by cs.length
decreasing_by
  · rename_i he
    have := parseEscape_length_lt _ _ _ he
    simp only [List.length_cons]
    omega
  · simp only [List.length_cons]
    omega

/-- One or more ASCII digits. -/
def digits1 (cs : List Char) : Option (List Char × List Char) :=
  let d := cs.takeWhile Char.isDigit
  if d.isEmpty then none else some (d, cs.dropWhile Char.isDigit)

/-- Integer part of a number: a single `0`, or a nonzero digit followed by
any digits. -/
def parseIntPart : List Char → Option (List Char × List Char)
  | [] => none
  | c :: rest =>
    if c = '0' then some (['0'], rest)
    else if c.isDigit then
      some (c :: rest.takeWhile Char.isDigit, rest.dropWhile Char.isDigit)
    else none

/-- Optional fraction: `.` followed by one or more digits. -/
def parseFracPart : List Char → Option (List Char × List Char)
  | [] => some ([], [])
  | c :: rest =>
    if c = '.' then
      match digits1 rest with
      | some (d, r) => some ('.' :: d, r)
      | none => none
    else some ([], c :: rest)

/-- Optional exponent: `e`/`E`, an optional sign, one or more digits. -/
def parseExpPart : List Char → Option (List Char × List Char)
  | [] => some ([], [])
  | c :: rest =>
    if c = 'e' ∨ c = 'E' then
      match rest with
      | s :: rest2 =>
        if s = '+' ∨ s = '-' then
          match digits1 rest2 with
          | some (d, r) => some (c :: s :: d, r)
          | none => none
        else
          match digits1 rest with
          | some (d, r) => some (c :: d, r)
          | none => none
      | [] => none
    else some ([], c :: rest)

/-- A number lexeme: optional leading `-`, integer part, optional fraction,
optional exponent.  Returns the lexeme and the remaining input. -/
def parseNumber (cs : List Char) : Option (List Char × List Char) := do
  let sc := if cs.head? = some '-' then ((['-'] : List Char), cs.tail) else ([], cs)
  let (ip, cs2) ← parseIntPart sc.2
  let (fp, cs3) ← parseFracPart cs2
  let (ep, cs4) ← parseExpPart cs3
  some (sc.1 ++ ip ++ fp ++ ep, cs4)

mutual

/-- Strict value parse; the input must begin directly with the value (the
caller skips leading whitespace).  The fuel decreases at every nested parse
and the top level passes the input length, which `jsonFuelSufficient`-style
reasoning in the completeness proof shows is enough. -/
def parseValueF : Nat → List Char → Option (JValue × List Char)
  | 0, _ => none
  | _ + 1, [] => none
  | fuel + 1, c :: rest =>
    if c = 'n' then
      match expectLit "ull".data rest with
      | some r => some (JValue.jnull, r)
      | none => none
    else if c = 't' then
      match expectLit "rue".data rest with
      | some r => some (JValue.jbool true, r)
      | none => none
    else if c = 'f' then
      match expectLit "alse".data rest with
      | some r => some (JValue.jbool false, r)
      | none => none
    else if c = '"' then
      match parseStringLit rest with
      | some (body, r) => some (JValue.jstr (String.mk body), r)
      | none => none
    else if c = '[' then
      match wsSkip rest with
      | ']' :: r => some (JValue.jarr JItems.inil, r)
      | r1 =>
        match parseItemsF fuel r1 with
        | some (items, r) => some (JValue.jarr items, r)
        | none => none
    else if c = '\x7b' then
      match wsSkip rest with
      | '\x7d' :: r => some (JValue.jobj JMembers.mnil, r)
      | r1 =>
        match parseMembersRawF fuel r1 with
        | some (raw, r) => some (JValue.jobj (buildMembers raw), r)
        | none => none
    else if c = '-' ∨ c.isDigit then
      match parseNumber (c :: rest) with
      | some (lex, r) => some (JValue.jnum (String.mk lex), r)
      | none => none
    else none

/-- One or more array items (input begins at the first item); consumes the
closing `]`. -/
def parseItemsF : Nat → List Char → Option (JItems × List Char)
  | 0, _ => none
  | fuel + 1, cs =>
    match parseValueF fuel cs with
    | some (v, r1) =>
      match wsSkip r1 with
      | ',' :: r2 =>
        match parseItemsF fuel (wsSkip r2) with
        | some (items, r3) => some (JItems.icons v items, r3)
        | none => none
      | ']' :: r2 => some (JItems.icons v JItems.inil, r2)
      | _ => none
    | none => none

/-- One or more object members in source order (input begins at the first
member's opening quote); consumes the closing brace. -/
def parseMembersRawF : Nat → List Char → Option (List (String × JValue) × List Char)
  | 0, _ => none
  | fuel + 1, cs =>
    match cs with
    | '"' :: rest =>
      match parseStringLit rest with
      | some (kChars, r1) =>
        match wsSkip r1 with
        | ':' :: r2 =>
          match parseValueF fuel (wsSkip r2) with
          | some (v, r3) =>
            match wsSkip r3 with
            | ',' :: r4 =>
              match parseMembersRawF fuel (wsSkip r4) with
              | some (raw, r5) => some ((String.mk kChars, v) :: raw, r5)
              | none => none
            | '\x7d' :: r4 => some ([(String.mk kChars, v)], r4)
            | _ => none
          | none => none
        | _ => none
      | none => none
    | _ => none

end

/-- Strict JSON parse of a whole string: skip whitespace, parse one value,
skip whitespace, and require the end of input. -/
def parseJson (s : String) : Option JValue :=
  match parseValueF (s.data.length + 1) (wsSkip s.data) with
  | some (v, rest) => if wsSkip rest = [] then some v else none
  | none => none

/-- Canonical pretty text of a value, as a string. -/
def prettyText (v : JValue) : String :=
  String.mk (prettyValue v 0)

/-! ## `format_json` and `json_to_spans` (src/main.rs lines 1433-1544) -/

/-- `format_json`: on a successful strict parse, the canonical pretty
re-serialization; on failure the input unchanged. -/
def format_json (s : String) : String :=
  match parseJson s with
  | some v => prettyText v
  | none => s

/-- `json_to_spans`: tokenize the pretty-printed text into classified spans;
when no spans were produced, a single plain fallback span holding the
original (pre-formatting) input. -/
def json_to_spans (s : String) : List Span :=
  let spans := jsonSpansGo (format_json s).data []
  if spans.isEmpty then [⟨s, SpanClass.plain⟩] else spans

/-! ## Key order: a lexical key scanner

Grounds "the order keys appear in the text": a string literal that is
followed, after optional whitespace, by a `':'` is a key occurrence; its
decoded content is collected in order of appearance.  Text outside string
literals is skipped. -/

theorem parseStringLit_length : ∀ (cs body rest : List Char),
    parseStringLit cs = some (body, rest) → rest.length < cs.length
  | [], body, rest => by simp [parseStringLit]
  | c :: tail, body, rest => by
    intro h
    simp only [parseStringLit] at h
    split_ifs at h with h1 h2 h3
    · simp only [Option.some.injEq, Prod.mk.injEq] at h
      rw [← h.2]
      simp
    · split at h
      · rename_i ch r he
        split at h
        · rename_i b2 r2 hs
          simp only [Option.some.injEq, Prod.mk.injEq] at h
          have hel := parseEscape_length_lt tail ch r he
          have hlt := parseStringLit_length r b2 r2 hs
          rw [← h.2]
          simp only [List.length_cons]
          omega
        · simp at h
      · simp at h
    · split at h
      · rename_i b2 r2 hs
        simp only [Option.some.injEq, Prod.mk.injEq] at h
        have hlt := parseStringLit_length tail b2 r2 hs
        rw [← h.2]
        simp only [List.length_cons]
        omega
      · simp at h
termination_by cs _ _ => cs.length
decreasing_by
  all_goals simp_wf
  all_goals omega

/-- The key occurrences of a character stream, in order of appearance: for
every string literal, its decoded content when the literal is followed
(after optional whitespace) by a `':'`. -/
def keyScan : List Char → List String
  | [] => []
  | c :: rest =>
    if c = '"' then
      match hs : parseStringLit rest with
      | some (body, rest2) =>
        if (wsSkip rest2).head? = some ':' then String.mk body :: keyScan rest2
        else keyScan rest2
      | none => keyScan rest
    else keyScan rest
termination_by cs => cs.length
decreasing_by
  all_goals simp only [List.length_cons]
  · have := parseStringLit_length cs _ _ hs
    omega
  · have := parseStringLit_length cs _ _ hs
    omega
  · omega
  · omega

mutual

/-- The keys a value's canonical serialization emits, top-down and
left-to-right, one entry per stored member. -/
def preKeysV : JValue → List String
  | JValue.jnull => []
  | JValue.jbool _ => []
  | JValue.jnum _ => []
  | JValue.jstr _ => []
  | JValue.jarr items => preKeysI items
  | JValue.jobj ms => preKeysM ms

/-- Keys emitted by a sequence of array items. -/
def preKeysI : JItems → List String
  | JItems.inil => []
  | JItems.icons v rest => preKeysV v ++ preKeysI rest

/-- Keys emitted by a sequence of object members. -/
def preKeysM : JMembers → List String
  | JMembers.mnil => []
  | JMembers.mcons k v rest => k :: (preKeysV v ++ preKeysM rest)

end

/-- The key occurrences of a raw member list as they stood in the source
text, duplicates included. -/
def rawKeys (raw : List (String × JValue)) : List String :=
  raw.flatMap fun p => p.1 :: preKeysV p.2

/-- A raw member list as a member sequence, kept verbatim. -/
def rawToMembers : List (String × JValue) → JMembers
  | [] => JMembers.mnil
  | (k, v) :: rest => JMembers.mcons k v (rawToMembers rest)

/-- Concatenation of the emitted span texts. -/

def spansText (spans : List Span) : String :=
  String.mk (spans.flatMap fun sp => sp.text.data)

/-! ## Lossless concatenation of the scanner output -/

/-- Character stream carried by a span list. -/
def spansData (spans : List Span) : List Char :=
  spans.flatMap fun sp => sp.text.data

theorem spansData_append (a b : List Span) :
    spansData (a ++ b) = spansData a ++ spansData b := by
  simp [spansData]

theorem spansText_eq_mk (spans : List Span) :
    spansText spans = String.mk (spansData spans) := rfl

theorem flushCurrent_data (cur : List Char) : spansData (flushCurrent cur) = cur := by
  unfold flushCurrent
  split <;> simp_all [spansData]

theorem readStringGo_append (cs : List Char) :
    ∀ esc, (readStringGo cs esc).1 ++ (readStringGo cs esc).2 = cs := by
  induction cs with
  | nil => intro esc; simp [readStringGo]
  | cons c rest ih =>
    intro esc
    simp only [readStringGo]
    split
    · have := ih false; simp_all
    · split
      · simp
      · split
        · have := ih true; simp_all
        · have := ih false; simp_all

theorem munchExpected_append (es cs : List Char) :
    (munchExpected es cs).1 ++ (munchExpected es cs).2 = cs := by
  induction es generalizing cs with
  | nil => simp [munchExpected]
  | cons e es ih =>
    cases cs with
    | nil => simp [munchExpected]
    | cons c cs =>
      simp only [munchExpected]
      split
      · have := ih cs; simp_all
      · simp

theorem jsonSpansGo_data_aux (n : Nat) :
    ∀ cs cur : List Char, cs.length = n → spansData (jsonSpansGo cs cur) = cur ++ cs := by
  induction n using Nat.strong_induction_on with
  | _ n ih =>
  intro cs cur hn
  match cs with
  | [] =>
    simp only [jsonSpansGo]
    rw [flushCurrent_data]
    simp
  | ch :: rest =>
    subst hn
    simp only [jsonSpansGo]
    split
    · rw [spansData_append, flushCurrent_data]
      have hsb := readStringGo_append rest false
      have hlen := readStringGo_snd_length_le rest false
      rw [show spansData (⟨String.mk ('"' :: (readStringBody rest).1), _⟩ ::
            jsonSpansGo (readStringBody rest).2 []) =
          '"' :: (readStringBody rest).1 ++ spansData (jsonSpansGo (readStringBody rest).2 [])
        from by simp [spansData]]
      rw [ih (readStringBody rest).2.length (by simp [readStringBody]; omega)
        (readStringBody rest).2 [] rfl]
      simp only [readStringBody] at *
      simp_all
    · split
      · rw [spansData_append, flushCurrent_data]
        have hlen := dropWhile_length_le isNumCont rest
        rw [show spansData (⟨String.mk (ch :: rest.takeWhile isNumCont), SpanClass.number⟩ ::
              jsonSpansGo (rest.dropWhile isNumCont) []) =
            ch :: rest.takeWhile isNumCont ++ spansData (jsonSpansGo (rest.dropWhile isNumCont) [])
          from by simp [spansData]]
        rw [ih (rest.dropWhile isNumCont).length (by simp; omega) (rest.dropWhile isNumCont) [] rfl]
        simp [List.takeWhile_append_dropWhile]
      · split
        · rw [spansData_append, flushCurrent_data]
          set expected := if ch = 't' then "rue".data else if ch = 'f' then "alse".data
            else "ull".data with hexp
          have happ := munchExpected_append expected rest
          have hlen := munchExpected_snd_length_le expected rest
          rw [show spansData (⟨String.mk (ch :: (munchExpected expected rest).1), _⟩ ::
                jsonSpansGo (munchExpected expected rest).2 []) =
              ch :: (munchExpected expected rest).1 ++
                spansData (jsonSpansGo (munchExpected expected rest).2 [])
            from by simp [spansData]]
          rw [ih (munchExpected expected rest).2.length (by simp; omega)
            (munchExpected expected rest).2 [] rfl]
          simp_all
        · split
          · rw [spansData_append, flushCurrent_data]
            rw [show spansData (⟨String.mk [ch], SpanClass.punctuation⟩ :: jsonSpansGo rest []) =
                ch :: spansData (jsonSpansGo rest [])
              from by simp [spansData]]
            rw [ih rest.length (by simp) rest [] rfl]
            simp
          · rw [ih rest.length (by simp) rest (cur ++ [ch]) rfl]
            simp

theorem jsonSpansGo_data (cs cur : List Char) :
    spansData (jsonSpansGo cs cur) = cur ++ cs :=
  jsonSpansGo_data_aux cs.length cs cur rfl

/-! ## Number lexeme lemmas -/

/-- Every character satisfies `p`. -/
def allP (p : Char → Bool) (l : List Char) : Prop := ∀ c ∈ l, p c

/-- The next character (if any) does not satisfy `p`. -/
def headNot (p : Char → Bool) (l : List Char) : Prop :=
  ∀ c, l.head? = some c → ¬ p c

theorem takeWhile_append_all (p : Char → Bool) (a b : List Char) (ha : allP p a) :
    (a ++ b).takeWhile p = a ++ b.takeWhile p := by
  induction a with
  | nil => simp
  | cons x a ih =>
    have hx : p x := ha x (by simp)
    simp only [List.cons_append, List.takeWhile_cons, hx, ite_true]
    rw [ih (fun c hc => ha c (by simp [hc]))]

theorem dropWhile_append_all (p : Char → Bool) (a b : List Char) (ha : allP p a) :
    (a ++ b).dropWhile p = b.dropWhile p := by
  induction a with
  | nil => simp
  | cons x a ih =>
    have hx : p x := ha x (by simp)
    simp only [List.cons_append, List.dropWhile_cons, hx, ite_true]
    exact ih (fun c hc => ha c (by simp [hc]))

theorem takeWhile_eq_nil_of_headNot (p : Char → Bool) (l : List Char) (h : headNot p l) :
    l.takeWhile p = [] := by
  cases l with
  | nil => simp
  | cons c rest =>
    have := h c (by simp)
    simp [List.takeWhile_cons, this]

theorem dropWhile_eq_self_of_headNot (p : Char → Bool) (l : List Char) (h : headNot p l) :
    l.dropWhile p = l := by
  cases l with
  | nil => simp
  | cons c rest =>
    have := h c (by simp)
    simp [List.dropWhile_cons, this]

theorem allP_takeWhile (p : Char → Bool) (l : List Char) : allP p (l.takeWhile p) := by
  intro c hc
  exact List.mem_takeWhile_imp hc

/-- Shape of a sign part. -/
def SignOk (sgn : List Char) : Prop := sgn = [] ∨ sgn = ['-']

/-- Shape of an integer part: a lone `0`, or a nonzero digit then digits. -/
def IpOk (ip : List Char) : Prop :=
  ip = ['0'] ∨ ∃ d ds, ip = d :: ds ∧ d.isDigit ∧ d ≠ '0' ∧ allP Char.isDigit ds

/-- Shape of a fraction part: empty, or `.` then one or more digits. -/
def FpOk (fp : List Char) : Prop :=
  fp = [] ∨ ∃ ds, fp = '.' :: ds ∧ ds ≠ [] ∧ allP Char.isDigit ds

/-- Shape of an exponent part: empty, or `e`/`E`, an optional sign, one or
more digits. -/
def EpOk (ep : List Char) : Prop :=
  ep = [] ∨ ∃ e sgn ds, (e = 'e' ∨ e = 'E') ∧ (sgn = [] ∨ sgn = ['+'] ∨ sgn = ['-']) ∧
    ds ≠ [] ∧ allP Char.isDigit ds ∧ ep = e :: (sgn ++ ds)

/-- Grammar shape of a whole number lexeme. -/
def NumParts (lex : List Char) : Prop :=
  ∃ sgn ip fp ep, SignOk sgn ∧ IpOk ip ∧ FpOk fp ∧ EpOk ep ∧ lex = sgn ++ ip ++ fp ++ ep

/-- Characters that could extend a number lexeme on reparse. -/
def NumFollower (l : List Char) : Prop :=
  headNot (fun c => c.isDigit || c = '.' || c = 'e' || c = 'E') l

theorem parseIntPart_spec (cs ip r : List Char) (h : parseIntPart cs = some (ip, r)) :
    cs = ip ++ r ∧ IpOk ip := by
  cases cs with
  | nil => simp [parseIntPart] at h
  | cons c rest =>
    simp only [parseIntPart] at h
    split_ifs at h with h0 hd
    · simp only [Option.some.injEq, Prod.mk.injEq] at h
      obtain ⟨rfl, rfl⟩ := h.symm
      subst h0
      exact ⟨rfl, Or.inl rfl⟩
    · simp only [Option.some.injEq, Prod.mk.injEq] at h
      obtain ⟨hip, hr⟩ := h
      subst hip
      subst hr
      constructor
      · simp [List.takeWhile_append_dropWhile]
      · exact Or.inr ⟨c, _, rfl, hd, h0, allP_takeWhile _ _⟩

theorem digits1_spec (cs d r : List Char) (h : digits1 cs = some (d, r)) :
    cs = d ++ r ∧ d ≠ [] ∧ allP Char.isDigit d := by
  simp only [digits1] at h
  split_ifs at h with he
  simp only [Option.some.injEq, Prod.mk.injEq] at h
  obtain ⟨rfl, rfl⟩ := h
  refine ⟨by simp [List.takeWhile_append_dropWhile], by simpa using he, allP_takeWhile _ _⟩

theorem parseFracPart_spec (cs fp r : List Char) (h : parseFracPart cs = some (fp, r)) :
    cs = fp ++ r ∧ FpOk fp := by
  cases cs with
  | nil =>
    simp only [parseFracPart, Option.some.injEq, Prod.mk.injEq] at h
    obtain ⟨rfl, rfl⟩ := h
    exact ⟨rfl, Or.inl rfl⟩
  | cons c rest =>
    simp only [parseFracPart] at h
    split_ifs at h with hdot
    · subst hdot
      rcases hd : digits1 rest with - | ⟨ds, rr⟩ <;> rw [hd] at h
      · simp at h
      · simp only [Option.some.injEq, Prod.mk.injEq] at h
        obtain ⟨rfl, rfl⟩ := h
        obtain ⟨hds, hne, hall⟩ := digits1_spec rest ds rr hd
        exact ⟨by simp [hds], Or.inr ⟨ds, rfl, hne, hall⟩⟩
    · simp only [Option.some.injEq, Prod.mk.injEq] at h
      obtain ⟨rfl, rfl⟩ := h
      exact ⟨rfl, Or.inl rfl⟩

theorem parseExpPart_spec (cs ep r : List Char) (h : parseExpPart cs = some (ep, r)) :
    cs = ep ++ r ∧ EpOk ep := by
  cases cs with
  | nil =>
    simp only [parseExpPart, Option.some.injEq, Prod.mk.injEq] at h
    obtain ⟨rfl, rfl⟩ := h
    exact ⟨rfl, Or.inl rfl⟩
  | cons c rest =>
    simp only [parseExpPart] at h
    split_ifs at h with he
    · cases rest with
      | nil => simp at h
      | cons s rest2 =>
        simp only at h
        split_ifs at h with hs
        · rcases hd : digits1 rest2 with - | ⟨ds, rr⟩ <;> rw [hd] at h
          · simp at h
          · simp only [Option.some.injEq, Prod.mk.injEq] at h
            obtain ⟨rfl, rfl⟩ := h
            obtain ⟨hds, hne, hall⟩ := digits1_spec rest2 ds rr hd
            refine ⟨by simp [hds], Or.inr ⟨c, [s], ds, he, ?_, hne, hall, by simp⟩⟩
            rcases hs with rfl | rfl
            · exact Or.inr (Or.inl rfl)
            · exact Or.inr (Or.inr rfl)
        · rcases hd : digits1 (s :: rest2) with - | ⟨ds, rr⟩ <;> rw [hd] at h
          · simp at h
          · simp only [Option.some.injEq, Prod.mk.injEq] at h
            obtain ⟨rfl, rfl⟩ := h
            obtain ⟨hds, hne, hall⟩ := digits1_spec (s :: rest2) ds rr hd
            exact ⟨by simp [hds], Or.inr ⟨c, [], ds, he, Or.inl rfl, hne, hall, by simp⟩⟩
    · simp only [Option.some.injEq, Prod.mk.injEq] at h
      obtain ⟨rfl, rfl⟩ := h
      exact ⟨rfl, Or.inl rfl⟩

theorem parseNumber_spec (cs lex r : List Char) (h : parseNumber cs = some (lex, r)) :
    cs = lex ++ r ∧ NumParts lex := by
  simp only [parseNumber, Option.bind_eq_bind, Option.bind_eq_some] at h
  by_cases hm : cs.head? = some '-'
  · rw [if_pos hm] at h
    obtain ⟨⟨ip, cs2⟩, hip, ⟨fp, cs3⟩, hfp, ⟨ep, cs4⟩, hep, hfin⟩ := h
    simp only [Option.some.injEq, Prod.mk.injEq] at hfin
    obtain ⟨hlex, hr⟩ := hfin
    obtain ⟨hcs2, hipok⟩ := parseIntPart_spec _ _ _ hip
    obtain ⟨hcs3, hfpok⟩ := parseFracPart_spec _ _ _ hfp
    obtain ⟨hcs4, hepok⟩ := parseExpPart_spec _ _ _ hep
    cases cs with
    | nil => simp at hm
    | cons c0 rest =>
      simp only [List.head?_cons, Option.some.injEq] at hm
      subst hm
      refine ⟨?_, ?_⟩
      · rw [← hr, ← hlex]
        simp only [List.tail_cons] at hcs2
        have h3 : cs2 = fp ++ cs3 := hcs3
        have h4 : cs3 = ep ++ cs4 := hcs4
        rw [hcs2, h3, h4]
        simp
      · rw [← hlex]
        exact ⟨['-'], ip, fp, ep, Or.inr rfl, hipok, hfpok, hepok, by simp⟩
  · rw [if_neg hm] at h
    obtain ⟨⟨ip, cs2⟩, hip, ⟨fp, cs3⟩, hfp, ⟨ep, cs4⟩, hep, hfin⟩ := h
    simp only [Option.some.injEq, Prod.mk.injEq] at hfin
    obtain ⟨hlex, hr⟩ := hfin
    obtain ⟨hcs2, hipok⟩ := parseIntPart_spec _ _ _ hip
    obtain ⟨hcs3, hfpok⟩ := parseFracPart_spec _ _ _ hfp
    obtain ⟨hcs4, hepok⟩ := parseExpPart_spec _ _ _ hep
    refine ⟨?_, ?_⟩
    · rw [← hr, ← hlex]
      have h3 : cs2 = fp ++ cs3 := hcs3
      have h4 : cs3 = ep ++ cs4 := hcs4
      have h2 : cs = ip ++ cs2 := hcs2
      rw [h2, h3, h4]
      simp
    · rw [← hlex]
      exact ⟨[], ip, fp, ep, Or.inl rfl, hipok, hfpok, hepok, by simp⟩

theorem digits1_complete (ds z : List Char) (hne : ds ≠ []) (hall : allP Char.isDigit ds)
    (hz : headNot Char.isDigit z) : digits1 (ds ++ z) = some (ds, z) := by
  unfold digits1
  rw [takeWhile_append_all _ _ _ hall, takeWhile_eq_nil_of_headNot _ _ hz,
    dropWhile_append_all _ _ _ hall, dropWhile_eq_self_of_headNot _ _ hz]
  simp [hne]

theorem parseIntPart_complete (ip z : List Char) (hi : IpOk ip)
    (hz : headNot Char.isDigit z) : parseIntPart (ip ++ z) = some (ip, z) := by
  rcases hi with rfl | ⟨d, ds, rfl, hd, hd0, hall⟩
  · simp [parseIntPart]
  · simp only [List.cons_append, parseIntPart, if_neg hd0, hd, if_true]
    rw [takeWhile_append_all _ _ _ hall, takeWhile_eq_nil_of_headNot _ _ hz,
      dropWhile_append_all _ _ _ hall, dropWhile_eq_self_of_headNot _ _ hz]
    simp

theorem parseFracPart_complete (fp z : List Char) (hf : FpOk fp)
    (hz : headNot (fun c => c.isDigit || c = '.') z) :
    parseFracPart (fp ++ z) = some (fp, z) := by
  rcases hf with rfl | ⟨ds, rfl, hne, hall⟩
  · cases z with
    | nil => simp [parseFracPart]
    | cons c rest =>
      have hc := hz c (by simp)
      simp only [Bool.or_eq_true, not_or] at hc
      simp only [List.nil_append, parseFracPart]
      rw [if_neg (by simpa using hc.2)]
  · have hd := digits1_complete ds z hne hall (fun c hc => by
      have := hz c hc
      simp only [Bool.or_eq_true, not_or] at this
      exact this.1)
    simp [parseFracPart, hd]

theorem parseExpPart_complete (ep z : List Char) (he : EpOk ep)
    (hz : headNot (fun c => c.isDigit || c = 'e' || c = 'E') z) :
    parseExpPart (ep ++ z) = some (ep, z) := by
  have hzdig : headNot Char.isDigit z := fun c hc => by
    have := hz c hc
    simp only [Bool.or_eq_true, not_or] at this
    exact this.1.1
  rcases he with rfl | ⟨e, sgn, ds, hee, hsgn, hne, hall, rfl⟩
  · cases z with
    | nil => simp [parseExpPart]
    | cons c rest =>
      have hc := hz c (by simp)
      simp only [Bool.or_eq_true, not_or] at hc
      simp only [List.nil_append, parseExpPart]
      rw [if_neg (by
        push_neg
        exact ⟨by simpa using hc.1.2, by simpa using hc.2⟩)]
  · rcases hsgn with rfl | rfl | rfl
    · cases hds : ds with
      | nil => exact absurd hds hne
      | cons d0 ds2 =>
        subst hds
        have hd0 : d0.isDigit := hall d0 (by simp)
        simp only [List.nil_append, List.cons_append, parseExpPart, if_pos hee]
        have hd := digits1_complete (d0 :: ds2) z (by simp) hall hzdig
        have hpm : ¬(d0 = '+' ∨ d0 = '-') := by
          rintro (rfl | rfl) <;> simp [Char.isDigit] at hd0
        rw [if_neg hpm]
        rw [show d0 :: (ds2 ++ z) = (d0 :: ds2) ++ z from rfl, hd]
    · have hd := digits1_complete ds z hne hall hzdig
      simp [parseExpPart, if_pos hee, hd]
    · have hd := digits1_complete ds z hne hall hzdig
      simp [parseExpPart, if_pos hee, hd]

theorem parseNumber_complete (lex z : List Char) (hp : NumParts lex) (hz : NumFollower z) :
    parseNumber (lex ++ z) = some (lex, z) := by
  obtain ⟨sgn, ip, fp, ep, hs, hi, hf, he, rfl⟩ := hp
  have hExpNot : headNot (fun c => c.isDigit || c = 'e' || c = 'E') z := fun c hc => by
    have := hz c hc
    simp only [Bool.or_eq_true, not_or] at this ⊢
    exact ⟨⟨this.1.1.1, this.1.2⟩, this.2⟩
  have hFracNot : headNot (fun c => c.isDigit || c = '.') (ep ++ z) := by
    intro c hc
    rcases he with rfl | ⟨e, sgn2, ds2, hee2, hsgn2, hne2, hall2, rfl⟩
    · simp only [List.nil_append] at hc
      have := hz c hc
      simp only [Bool.or_eq_true, not_or] at this ⊢
      exact ⟨this.1.1.1, this.1.1.2⟩
    · simp only [List.cons_append, List.head?_cons, Option.some.injEq] at hc
      subst hc
      rcases hee2 with rfl | rfl <;> simp [Char.isDigit]
  have hIntNot : headNot Char.isDigit (fp ++ (ep ++ z)) := by
    intro c hc
    rcases hf with rfl | ⟨ds, rfl, hne, hall⟩
    · simp only [List.nil_append] at hc
      have := hFracNot c hc
      simp only [Bool.or_eq_true, not_or] at this
      exact this.1
    · simp only [List.cons_append, List.head?_cons, Option.some.injEq] at hc
      subst hc
      simp [Char.isDigit]
  have hIP := parseIntPart_complete ip (fp ++ (ep ++ z)) hi hIntNot
  have hFP := parseFracPart_complete fp (ep ++ z) hf hFracNot
  have hEP := parseExpPart_complete ep z he hExpNot
  rcases hs with rfl | rfl
  · have hhd : ¬ ((([] : List Char) ++ ip ++ fp ++ ep ++ z).head? = some '-') := by
      rcases hi with rfl | ⟨d, ds, rfl, hd, hd0, hall⟩
      · simp
      · simp only [List.nil_append, List.cons_append, List.head?_cons, Option.some.injEq]
        intro hcon
        rw [hcon] at hd
        simp [Char.isDigit] at hd
    simp only [List.nil_append] at hhd ⊢
    simp only [parseNumber, Option.bind_eq_bind]
    rw [if_neg hhd]
    rw [show ip ++ fp ++ ep ++ z = ip ++ (fp ++ (ep ++ z)) from by simp]
    rw [show (parseIntPart (ip ++ (fp ++ (ep ++ z))) : Option (List Char × List Char)) =
      some (ip, fp ++ (ep ++ z)) from hIP]
    simp only [Option.some_bind]
    rw [hFP]
    simp only [Option.some_bind]
    rw [hEP]
    simp only [Option.some_bind, List.nil_append]
  · simp only [parseNumber, Option.bind_eq_bind]
    rw [if_pos (show ((['-'] ++ ip ++ fp ++ ep ++ z).head? = some '-') from by simp)]
    rw [show (['-'] ++ ip ++ fp ++ ep ++ z).tail = ip ++ (fp ++ (ep ++ z)) from by simp]
    rw [show (parseIntPart (ip ++ (fp ++ (ep ++ z))) : Option (List Char × List Char)) =
      some (ip, fp ++ (ep ++ z)) from hIP]
    simp only [Option.some_bind]
    rw [hFP]
    simp only [Option.some_bind]
    rw [hEP]
    simp only [Option.some_bind]

/-- A valid number lexeme: the number lexer accepts it in full. -/
def validNumLexeme (lex : String) : Prop :=
  parseNumber lex.data = some (lex.data, [])

theorem validNumLexeme_of_parse (cs lex r : List Char) (h : parseNumber cs = some (lex, r)) :
    validNumLexeme (String.mk lex) := by
  obtain ⟨-, hp⟩ := parseNumber_spec cs lex r h
  have := parseNumber_complete lex [] hp (fun c hc => by simp at hc)
  simpa [validNumLexeme] using this

theorem parseNumber_valid_complete (lex : String) (z : List Char) (hv : validNumLexeme lex)
    (hz : NumFollower z) : parseNumber (lex.data ++ z) = some (lex.data, z) := by
  obtain ⟨-, hp⟩ := parseNumber_spec lex.data lex.data [] hv
  exact parseNumber_complete lex.data z hp hz

/-! ## String literal escape round trip -/

theorem parseHex_hexDigit (x : Nat) (h : x < 16) : parseHex (hexDigit x) = some x := by
  interval_cases x <;> decide

theorem parseStringLit_quote (r : List Char) :
    parseStringLit ('"' :: r) = some ([], r) := by
  simp [parseStringLit]

theorem parseStringLit_backslash_some (r : List Char) (ch : Char) (r2 b rest : List Char)
    (hesc : parseEscape r = some (ch, r2)) (hrec : parseStringLit r2 = some (b, rest)) :
    parseStringLit ('\\' :: r) = some (ch :: b, rest) := by
  simp only [parseStringLit]
  rw [if_neg (by decide), if_pos trivial]
  split
  · rename_i ch2 r2' he2
    rw [hesc] at he2
    simp only [Option.some.injEq, Prod.mk.injEq] at he2
    obtain ⟨rfl, rfl⟩ := he2
    rw [hrec]
  · rename_i he2
    rw [hesc] at he2
    cases he2

theorem parseStringLit_other_some (c : Char) (tail b rest : List Char) (hq : ¬ c = '"')
    (hb : ¬ c = '\\') (hc : ¬ c.toNat < 0x20)
    (hrec : parseStringLit tail = some (b, rest)) :
    parseStringLit (c :: tail) = some (c :: b, rest) := by
  simp only [parseStringLit]
  rw [if_neg hq, if_neg hb, if_neg hc, hrec]

theorem parseStringLit_step_some (c : Char) (tail b rest : List Char)
    (hrec : parseStringLit tail = some (b, rest)) :
    parseStringLit (escapeChar c ++ tail) = some (c :: b, rest) := by
  by_cases hq : c = '"'
  · subst hq
    rw [show escapeChar '"' = ['\\', '"'] from by decide]
    rw [List.cons_append, List.cons_append, List.nil_append]
    exact parseStringLit_backslash_some _ _ _ _ _ (by simp [parseEscape]) hrec
  · by_cases hb : c = '\\'
    · subst hb
      rw [show escapeChar '\\' = ['\\', '\\'] from by decide]
      rw [List.cons_append, List.cons_append, List.nil_append]
      exact parseStringLit_backslash_some _ _ _ _ _ (by simp [parseEscape]) hrec
    · by_cases h8 : c.toNat = 8
      · have hc : c = Char.ofNat 8 := by rw [← h8, Char.ofNat_toNat]
        subst hc
        rw [show escapeChar (Char.ofNat 8) = ['\\', 'b'] from by decide]
        rw [List.cons_append, List.cons_append, List.nil_append]
        exact parseStringLit_backslash_some _ _ _ _ _ (by simp [parseEscape]) hrec
      · by_cases h9 : c.toNat = 9
        · have hc : c = Char.ofNat 9 := by rw [← h9, Char.ofNat_toNat]
          subst hc
          rw [show escapeChar (Char.ofNat 9) = ['\\', 't'] from by decide]
          rw [List.cons_append, List.cons_append, List.nil_append]
          exact parseStringLit_backslash_some _ _ _ _ _ (by simp [parseEscape]) hrec
        · by_cases h10 : c.toNat = 10
          · have hc : c = Char.ofNat 10 := by rw [← h10, Char.ofNat_toNat]
            subst hc
            rw [show escapeChar (Char.ofNat 10) = ['\\', 'n'] from by decide]
            rw [List.cons_append, List.cons_append, List.nil_append]
            exact parseStringLit_backslash_some _ _ _ _ _ (by simp [parseEscape]) hrec
          · by_cases h12 : c.toNat = 12
            · have hc : c = Char.ofNat 12 := by rw [← h12, Char.ofNat_toNat]
              subst hc
              rw [show escapeChar (Char.ofNat 12) = ['\\', 'f'] from by decide]
              rw [List.cons_append, List.cons_append, List.nil_append]
              exact parseStringLit_backslash_some _ _ _ _ _ (by simp [parseEscape]) hrec
            · by_cases h13 : c.toNat = 13
              · have hc : c = Char.ofNat 13 := by rw [← h13, Char.ofNat_toNat]
                subst hc
                rw [show escapeChar (Char.ofNat 13) = ['\\', 'r'] from by decide]
                rw [List.cons_append, List.cons_append, List.nil_append]
                exact parseStringLit_backslash_some _ _ _ _ _ (by simp [parseEscape]) hrec
              · by_cases hctl : c.toNat < 0x20
                · have hdiv : c.toNat / 16 < 16 := by omega
                  have hmod : c.toNat % 16 < 16 := by omega
                  have hu1 := parseHex_hexDigit (c.toNat / 16) hdiv
                  have hu2 := parseHex_hexDigit (c.toNat % 16) hmod
                  have hne : escapeChar c =
                      ['\\', 'u', '0', '0', hexDigit (c.toNat / 16), hexDigit (c.toNat % 16)] := by
                    unfold escapeChar
                    rw [if_neg hq, if_neg hb, if_neg h8, if_neg h9, if_neg h10, if_neg h12,
                      if_neg h13, if_pos hctl]
                  have h4 : take4Hex ('0' :: '0' :: hexDigit (c.toNat / 16) ::
                      hexDigit (c.toNat % 16) :: tail) = some (c.toNat, tail) := by
                    simp only [take4Hex, Option.bind_eq_bind]
                    rw [show parseHex '0' = some 0 from by decide, hu1, hu2]
                    simp only [Option.some_bind, Option.some.injEq, Prod.mk.injEq, and_true]
                    omega
                  have hun : parseUnicodeEscape ('0' :: '0' :: hexDigit (c.toNat / 16) ::
                      hexDigit (c.toNat % 16) :: tail) = some (c, tail) := by
                    unfold parseUnicodeEscape
                    rw [h4]
                    simp only
                    rw [if_neg (show ¬(0xd800 ≤ c.toNat ∧ c.toNat ≤ 0xdbff) from by omega),
                      if_neg (show ¬(0xdc00 ≤ c.toNat ∧ c.toNat ≤ 0xdfff) from by omega),
                      Char.ofNat_toNat]
                  have hesc : parseEscape ('u' :: '0' :: '0' :: hexDigit (c.toNat / 16) ::
                      hexDigit (c.toNat % 16) :: tail) = some (c, tail) := by
                    rw [show parseEscape ('u' :: '0' :: '0' :: hexDigit (c.toNat / 16) ::
                        hexDigit (c.toNat % 16) :: tail) =
                      parseUnicodeEscape ('0' :: '0' :: hexDigit (c.toNat / 16) ::
                        hexDigit (c.toNat % 16) :: tail) from by simp [parseEscape]]
                    exact hun
                  rw [hne]
                  rw [List.cons_append, List.cons_append, List.cons_append, List.cons_append,
                    List.cons_append, List.cons_append, List.nil_append]
                  exact parseStringLit_backslash_some _ _ _ _ _ hesc hrec
                · have hne : escapeChar c = [c] := by
                    unfold escapeChar
                    rw [if_neg hq, if_neg hb, if_neg h8, if_neg h9, if_neg h10, if_neg h12,
                      if_neg h13, if_neg hctl]
                  rw [hne, List.cons_append, List.nil_append]
                  exact parseStringLit_other_some c tail b rest hq hb hctl hrec

theorem parseStringLit_complete (s rest : List Char) :
    parseStringLit (escChars s ++ '"' :: rest) = some (s, rest) := by
  induction s with
  | nil => simp [escChars, parseStringLit_quote]
  | cons c s ih =>
    rw [show escChars (c :: s) = escapeChar c ++ escChars s from by simp [escChars]]
    rw [List.append_assoc]
    exact parseStringLit_step_some c _ s rest ih

/-! ## Well-formed values, sizes, and member-map lemmas -/

mutual

/-- Well-formedness the parser guarantees: number lexemes are grammatical
and object keys are free of duplicates. -/
def WFv : JValue → Prop
  | JValue.jnull => True
  | JValue.jbool _ => True
  | JValue.jnum lexeme => validNumLexeme lexeme
  | JValue.jstr _ => True
  | JValue.jarr items => WFi items
  | JValue.jobj ms => (mkeys ms).Nodup ∧ WFm ms

/-- All items well-formed. -/
def WFi : JItems → Prop
  | JItems.inil => True
  | JItems.icons v rest => WFv v ∧ WFi rest

/-- All member values well-formed. -/
def WFm : JMembers → Prop
  | JMembers.mnil => True
  | JMembers.mcons _ v rest => WFv v ∧ WFm rest

end

mutual

/-- Fuel bound for parsing a value. -/
def sizeV : JValue → Nat
  | JValue.jnull => 1
  | JValue.jbool _ => 1
  | JValue.jnum _ => 1
  | JValue.jstr _ => 1
  | JValue.jarr items => 1 + sizeI items
  | JValue.jobj ms => 1 + sizeM ms

/-- Fuel bound for parsing items. -/
def sizeI : JItems → Nat
  | JItems.inil => 0
  | JItems.icons v rest => 1 + sizeV v + sizeI rest

/-- Fuel bound for parsing members. -/
def sizeM : JMembers → Nat
  | JMembers.mnil => 0
  | JMembers.mcons _ v rest => 1 + sizeV v + sizeM rest

end

/-- Members as a plain pair list, in stored order. -/
def mPairs : JMembers → List (String × JValue)
  | JMembers.mnil => []
  | JMembers.mcons k v rest => (k, v) :: mPairs rest

/-- Concatenation of member sequences. -/
def mcat : JMembers → JMembers → JMembers
  | JMembers.mnil, t => t
  | JMembers.mcons k v rest, t => JMembers.mcons k v (mcat rest t)

theorem mcat_mnil : ∀ ms : JMembers, mcat ms JMembers.mnil = ms
  | JMembers.mnil => rfl
  | JMembers.mcons k v rest => by simp [mcat, mcat_mnil rest]

theorem mcat_assoc : ∀ a b c : JMembers, mcat (mcat a b) c = mcat a (mcat b c)
  | JMembers.mnil, _, _ => rfl
  | JMembers.mcons k v rest, b, c => by simp [mcat, mcat_assoc rest b c]

theorem mkeys_mcat : ∀ a b : JMembers, mkeys (mcat a b) = mkeys a ++ mkeys b
  | JMembers.mnil, b => by simp [mcat, mkeys]
  | JMembers.mcons k v rest, b => by simp [mcat, mkeys, mkeys_mcat rest b]

theorem minsert_not_mem : ∀ (ms : JMembers) (k : String) (v : JValue), k ∉ mkeys ms →
    minsert ms k v = mcat ms (JMembers.mcons k v JMembers.mnil)
  | JMembers.mnil, k, v, _ => rfl
  | JMembers.mcons k0 v0 rest, k, v, h => by
    simp only [mkeys, List.mem_cons, not_or] at h
    simp only [minsert, mcat]
    rw [if_neg (fun hh => h.1 hh.symm), minsert_not_mem rest k v h.2]

theorem mkeys_minsert : ∀ (ms : JMembers) (k : String) (v : JValue),
    mkeys (minsert ms k v) = if k ∈ mkeys ms then mkeys ms else mkeys ms ++ [k]
  | JMembers.mnil, k, v => by simp [minsert, mkeys]
  | JMembers.mcons k0 v0 rest, k, v => by
    simp only [minsert, mkeys]
    by_cases hk : k0 = k
    · subst hk
      rw [if_pos rfl]
      simp [mkeys]
    · rw [if_neg hk, mkeys, mkeys_minsert rest k v]
      by_cases hm : k ∈ mkeys rest
      · rw [if_pos hm, if_pos (by simp [hm])]
      · rw [if_neg hm, if_neg (by simp [hm, Ne.symm hk])]
        simp

theorem mkeys_minsert_nodup (ms : JMembers) (k : String) (v : JValue)
    (h : (mkeys ms).Nodup) : (mkeys (minsert ms k v)).Nodup := by
  rw [mkeys_minsert]
  split_ifs with hm
  · exact h
  · simp [List.nodup_append, h, hm]

theorem WFm_minsert : ∀ (ms : JMembers) (k : String) (v : JValue), WFm ms → WFv v →
    WFm (minsert ms k v)
  | JMembers.mnil, k, v, _, hv => ⟨hv, trivial⟩
  | JMembers.mcons k0 v0 rest, k, v, hm, hv => by
    obtain ⟨hv0, hrest⟩ := hm
    simp only [minsert]
    split_ifs with hk
    · exact ⟨hv, hrest⟩
    · exact ⟨hv0, WFm_minsert rest k v hrest hv⟩

theorem buildMembers_go_nodup (raw : List (String × JValue)) (acc : JMembers)
    (h : (mkeys acc).Nodup) :
    (mkeys (raw.foldl (fun a kv => minsert a kv.1 kv.2) acc)).Nodup := by
  induction raw generalizing acc with
  | nil => exact h
  | cons kv raw ih => exact ih _ (mkeys_minsert_nodup _ _ _ h)

theorem buildMembers_nodup (raw : List (String × JValue)) :
    (mkeys (buildMembers raw)).Nodup := by
  unfold buildMembers
  exact buildMembers_go_nodup raw JMembers.mnil (by simp [mkeys])

theorem buildMembers_go_wf (raw : List (String × JValue)) (acc : JMembers)
    (hacc : WFm acc) (h : ∀ kv ∈ raw, WFv kv.2) :
    WFm (raw.foldl (fun a kv => minsert a kv.1 kv.2) acc) := by
  induction raw generalizing acc with
  | nil => exact hacc
  | cons kv raw ih =>
    exact ih _ (WFm_minsert _ _ _ hacc (h kv (by simp)))
      (fun kv2 hkv2 => h kv2 (by simp [hkv2]))

theorem buildMembers_wf (raw : List (String × JValue)) (h : ∀ kv ∈ raw, WFv kv.2) :
    WFm (buildMembers raw) := by
  unfold buildMembers
  exact buildMembers_go_wf raw JMembers.mnil trivial h

theorem buildMembers_go_pairs : ∀ (ms : JMembers) (acc : JMembers),
    (mkeys acc ++ mkeys ms).Nodup →
    (mPairs ms).foldl (fun a kv => minsert a kv.1 kv.2) acc = mcat acc ms
  | JMembers.mnil, acc, _ => by simp [mPairs, mcat_mnil]
  | JMembers.mcons k v rest, acc, h => by
    simp only [mPairs, List.foldl_cons]
    have hk : k ∉ mkeys acc := by
      intro hmem
      have := List.disjoint_of_nodup_append h
      exact this hmem (by simp [mkeys])
    rw [minsert_not_mem acc k v hk]
    rw [buildMembers_go_pairs rest (mcat acc (JMembers.mcons k v JMembers.mnil)) ?_]
    · rw [mcat_assoc]
      rfl
    · rw [mkeys_mcat]
      simp only [mkeys]
      have h2 : (mkeys acc ++ k :: mkeys rest).Nodup := h
      rw [List.append_assoc]
      simpa [List.nodup_append, List.nodup_cons, or_imp, forall_and] using h2

theorem buildMembers_mPairs (ms : JMembers) (h : (mkeys ms).Nodup) :
    buildMembers (mPairs ms) = ms := by
  unfold buildMembers
  rw [buildMembers_go_pairs ms JMembers.mnil (by simpa [mkeys] using h)]
  rfl

/-! ## Parser invariant: parsed values are well-formed -/

theorem parser_wf (fuel : Nat) :
    (∀ cs v r, parseValueF fuel cs = some (v, r) → WFv v) ∧
    (∀ cs it r, parseItemsF fuel cs = some (it, r) → WFi it) ∧
    (∀ cs raw r, parseMembersRawF fuel cs = some (raw, r) → ∀ kv ∈ raw, WFv kv.2) := by
  induction fuel with
  | zero =>
    refine ⟨?_, ?_, ?_⟩ <;> intro cs a r h <;>
      simp [parseValueF, parseItemsF, parseMembersRawF] at h
  | succ fuel ih =>
    obtain ⟨ihV, ihI, ihM⟩ := ih
    refine ⟨?_, ?_, ?_⟩
    · intro cs v r h
      match cs with
      | [] => simp [parseValueF] at h
      | c :: rest =>
        simp only [parseValueF] at h
        split_ifs at h with h1 h2 h3 h4 h5 h6 h7
        · split at h
          · simp only [Option.some.injEq, Prod.mk.injEq] at h
            obtain ⟨rfl, rfl⟩ := h
            trivial
          · simp at h
        · split at h
          · simp only [Option.some.injEq, Prod.mk.injEq] at h
            obtain ⟨rfl, rfl⟩ := h
            trivial
          · simp at h
        · split at h
          · simp only [Option.some.injEq, Prod.mk.injEq] at h
            obtain ⟨rfl, rfl⟩ := h
            trivial
          · simp at h
        · split at h
          · simp only [Option.some.injEq, Prod.mk.injEq] at h
            obtain ⟨rfl, rfl⟩ := h
            trivial
          · simp at h
        · split at h
          · simp only [Option.some.injEq, Prod.mk.injEq] at h
            obtain ⟨rfl, rfl⟩ := h
            trivial
          · split at h
            · rename_i items r2 hit
              simp only [Option.some.injEq, Prod.mk.injEq] at h
              obtain ⟨rfl, rfl⟩ := h
              exact ihI _ _ _ hit
            · simp at h
        · split at h
          · simp only [Option.some.injEq, Prod.mk.injEq] at h
            obtain ⟨rfl, rfl⟩ := h
            exact ⟨by simp [mkeys], trivial⟩
          · split at h
            · rename_i raw r2 hraw
              simp only [Option.some.injEq, Prod.mk.injEq] at h
              obtain ⟨rfl, rfl⟩ := h
              exact ⟨buildMembers_nodup raw, buildMembers_wf raw (ihM _ _ _ hraw)⟩
            · simp at h
        · split at h
          · rename_i lex r2 hnum
            simp only [Option.some.injEq, Prod.mk.injEq] at h
            obtain ⟨rfl, rfl⟩ := h
            exact validNumLexeme_of_parse _ _ _ hnum
          · simp at h
    · intro cs it r h
      simp only [parseItemsF] at h
      split at h
      · rename_i v r1 hv
        split at h
        · split at h
          · rename_i items r3 hits
            simp only [Option.some.injEq, Prod.mk.injEq] at h
            obtain ⟨rfl, rfl⟩ := h
            exact ⟨ihV _ _ _ hv, ihI _ _ _ hits⟩
          · simp at h
        · simp only [Option.some.injEq, Prod.mk.injEq] at h
          obtain ⟨rfl, rfl⟩ := h
          exact ⟨ihV _ _ _ hv, trivial⟩
        · simp at h
      · simp at h
    · intro cs raw r h
      simp only [parseMembersRawF] at h
      split at h
      · rename_i kBody rest
        split at h
        · rename_i kChars r1 hk
          split at h
          · split at h
            · rename_i v r3 hv
              split at h
              · split at h
                · rename_i raw2 r5 hraw2
                  simp only [Option.some.injEq, Prod.mk.injEq] at h
                  obtain ⟨rfl, rfl⟩ := h
                  intro kv hkv
                  rcases List.mem_cons.mp hkv with rfl | hkv2
                  · exact ihV _ _ _ hv
                  · exact ihM _ _ _ hraw2 kv hkv2
                · simp at h
              · simp only [Option.some.injEq, Prod.mk.injEq] at h
                obtain ⟨rfl, rfl⟩ := h
                intro kv hkv
                rcases List.mem_singleton.mp hkv with rfl
                exact ihV _ _ _ hv
              · simp at h
            · simp at h
          · simp at h
        · simp at h
      · simp at h

/-! ## Whitespace and lookahead lemmas for completeness -/

theorem expectLit_self (lit z : List Char) : expectLit lit (lit ++ z) = some z := by
  unfold expectLit
  rw [if_pos (List.isPrefixOf_iff_prefix.mpr (List.prefix_append lit z))]
  rw [List.drop_left]

theorem wsSkip_cons_ws (c : Char) (x : List Char) (h : isJsonWs c = true) :
    wsSkip (c :: x) = wsSkip x := by
  simp [wsSkip, List.dropWhile_cons, h]

theorem wsSkip_indent (k : Nat) (x : List Char) :
    wsSkip (indentChars k ++ x) = wsSkip x := by
  unfold indentChars
  induction 2 * k with
  | zero => simp
  | succ n ih => simpa [List.replicate_succ, wsSkip, List.dropWhile_cons, isJsonWs] using ih

theorem wsSkip_headNot (x : List Char) (h : headNot isJsonWs x) : wsSkip x = x :=
  dropWhile_eq_self_of_headNot _ _ h

theorem char_toNat_ne (a b : Char) (h : a.toNat ≠ b.toNat) : a ≠ b := by
  intro hh
  exact h (by rw [hh])

theorem isDigit_toNat (c : Char) (h : c.isDigit = true) : 48 ≤ c.toNat ∧ c.toNat ≤ 57 := by
  simp only [Char.isDigit, Bool.and_eq_true, decide_eq_true_eq] at h
  exact ⟨h.1, h.2⟩

theorem isJsonWs_toNat (c : Char) (h : isJsonWs c = true) :
    c.toNat = 32 ∨ c.toNat = 9 ∨ c.toNat = 10 ∨ c.toNat = 13 := by
  simp only [isJsonWs, Bool.or_eq_true, decide_eq_true_eq] at h
  rcases h with ((rfl | rfl) | rfl) | rfl
  · left; rfl
  · right; left; rfl
  · right; right; left; rfl
  · right; right; right; rfl

/-- Head of the canonical text of a well-formed value: never whitespace,
never a closing bracket or brace. -/
theorem prettyValue_head (v : JValue) (d : Nat) (hwf : WFv v) :
    ∃ c t, prettyValue v d = c :: t ∧ ¬ isJsonWs c = true ∧ c ≠ ']' ∧ c ≠ '}' := by
  cases v with
  | jnull => exact ⟨'n', _, by simp only [prettyValue]; rfl, by decide, by decide, by decide⟩
  | jbool b => cases b with
    | true => exact ⟨'t', _, by simp only [prettyValue]; rfl, by decide, by decide, by decide⟩
    | false => exact ⟨'f', _, by simp only [prettyValue]; rfl, by decide, by decide, by decide⟩
  | jnum lexeme =>
    have hv : validNumLexeme lexeme := hwf
    obtain ⟨sgn, ip, fp, ep, hs, hi, hf, he, hlex⟩ :=
      (parseNumber_spec lexeme.data lexeme.data [] hv).2
    have hdig : ∀ c0 : Char, c0.isDigit = true →
        ¬ isJsonWs c0 = true ∧ c0 ≠ ']' ∧ c0 ≠ '}' := by
      intro c0 hc0
      obtain ⟨hlo, hhi⟩ := isDigit_toNat c0 hc0
      have h93 : (']' : Char).toNat = 93 := rfl
      have h125 : ('}' : Char).toNat = 125 := rfl
      refine ⟨?_, char_toNat_ne _ _ (by omega), char_toNat_ne _ _ (by omega)⟩
      intro hws
      rcases isJsonWs_toNat c0 hws with h | h | h | h <;> omega
    rcases hs with rfl | rfl
    · simp only [List.nil_append] at hlex
      rcases hi with rfl | ⟨d0, ds, rfl, hd0, -, -⟩
      · refine ⟨'0', fp ++ ep, ?_, by decide, by decide, by decide⟩
        simp only [prettyValue]
        rw [hlex]
        simp
      · obtain ⟨h1, h2, h3⟩ := hdig d0 hd0
        refine ⟨d0, ds ++ fp ++ ep, ?_, h1, h2, h3⟩
        simp only [prettyValue]
        rw [hlex]
        simp
    · refine ⟨'-', ip ++ fp ++ ep, ?_, by decide, by decide, by decide⟩
      simp only [prettyValue]
      rw [hlex]
      simp
  | jstr s => exact ⟨'"', _, by simp only [prettyValue]; rfl, by decide, by decide, by decide⟩
  | jarr items => cases items with
    | inil => exact ⟨'[', _, by simp only [prettyValue]; rfl, by decide, by decide, by decide⟩
    | icons v rest =>
      exact ⟨'[', _, by simp only [prettyValue]; rfl, by decide, by decide, by decide⟩
  | jobj ms => cases ms with
    | mnil =>
      exact ⟨'\x7b', _, by simp only [prettyValue]; rfl, by decide, by decide, by decide⟩
    | mcons k v rest =>
      exact ⟨'\x7b', _, by simp only [prettyValue]; rfl, by decide, by decide, by decide⟩

theorem numFollower_comma (x : List Char) : NumFollower (',' :: x) := by
  intro c hc
  simp only [List.head?_cons, Option.some.injEq] at hc
  subst hc
  decide

theorem numFollower_newline (x : List Char) : NumFollower ('\n' :: x) := by
  intro c hc
  simp only [List.head?_cons, Option.some.injEq] at hc
  subst hc
  decide

theorem numFollower_nil : NumFollower ([] : List Char) := by
  intro c hc
  simp at hc

theorem numFollower_cons (c : Char) (x : List Char)
    (h : ¬ (c.isDigit || c = '.' || c = 'e' || c = 'E') = true) : NumFollower (c :: x) := by
  intro c2 hc2
  simp only [List.head?_cons, Option.some.injEq] at hc2
  subst hc2
  exact h

theorem parseValueF_num (fuel : Nat) (lexeme : String) (rest : List Char)
    (hv : validNumLexeme lexeme) (hrest : NumFollower rest) :
    parseValueF (fuel + 1) (lexeme.data ++ rest) = some (JValue.jnum lexeme, rest) := by
  obtain ⟨sgn, ip, fp, ep, hs, hi, hf, he, hlex⟩ := (parseNumber_spec _ _ _ hv).2
  have hnum := parseNumber_valid_complete lexeme rest hv hrest
  obtain ⟨c0, t0, hcons, hc0⟩ : ∃ c0 t0, lexeme.data = c0 :: t0 ∧ (c0 = '-' ∨ c0.isDigit) := by
    rcases hs with rfl | rfl
    · rcases hi with rfl | ⟨d0, ds, rfl, hd0, -, -⟩
      · exact ⟨'0', fp ++ ep, by simpa using hlex, Or.inr (by decide)⟩
      · exact ⟨d0, ds ++ fp ++ ep, by simpa using hlex, Or.inr hd0⟩
    · exact ⟨'-', ip ++ fp ++ ep, by simpa using hlex, Or.inl rfl⟩
  have hfacts : ¬ c0 = 'n' ∧ ¬ c0 = 't' ∧ ¬ c0 = 'f' ∧ ¬ c0 = '"' ∧ ¬ c0 = '[' ∧
      ¬ c0 = '\x7b' := by
    rcases hc0 with rfl | hd
    · exact ⟨by decide, by decide, by decide, by decide, by decide, by decide⟩
    · obtain ⟨hlo, hhi⟩ := isDigit_toNat c0 hd
      refine ⟨char_toNat_ne _ _ (by rw [show ('n' : Char).toNat = 110 from rfl]; omega),
        char_toNat_ne _ _ (by rw [show ('t' : Char).toNat = 116 from rfl]; omega),
        char_toNat_ne _ _ (by rw [show ('f' : Char).toNat = 102 from rfl]; omega),
        char_toNat_ne _ _ (by rw [show ('"' : Char).toNat = 34 from rfl]; omega),
        char_toNat_ne _ _ (by rw [show ('[' : Char).toNat = 91 from rfl]; omega),
        char_toNat_ne _ _ (by rw [show ('\x7b' : Char).toNat = 123 from rfl]; omega)⟩
  rw [hcons, List.cons_append]
  simp only [parseValueF]
  rw [if_neg hfacts.1, if_neg hfacts.2.1, if_neg hfacts.2.2.1, if_neg hfacts.2.2.2.1,
    if_neg hfacts.2.2.2.2.1, if_neg hfacts.2.2.2.2.2, if_pos hc0]
  rw [show c0 :: (t0 ++ rest) = lexeme.data ++ rest from by rw [hcons]; simp]
  rw [hnum]

theorem parseValueF_str (fuel : Nat) (s : String) (rest : List Char) :
    parseValueF (fuel + 1) (('"' :: (escChars s.data ++ ['"'])) ++ rest) =
      some (JValue.jstr s, rest) := by
  rw [List.cons_append]
  simp only [parseValueF]
  rw [if_neg (by decide), if_neg (by decide), if_neg (by decide), if_pos trivial]
  rw [show (escChars s.data ++ ['"']) ++ rest = escChars s.data ++ '"' :: rest from by simp]
  rw [parseStringLit_complete]

theorem numFollower_pir (items : JItems) (d : Nat) (x : List Char) :
    NumFollower (prettyItemsRest items d ++ '\n' :: x) := by
  cases items with
  | inil => simpa [prettyItemsRest] using numFollower_newline x
  | icons v rest =>
    rw [show prettyItemsRest (JItems.icons v rest) d ++ '\n' :: x =
      ',' :: ('\n' :: (indentChars d ++ prettyValue v d ++ prettyItemsRest rest d) ++ '\n' :: x)
      from by simp [prettyItemsRest]]
    exact numFollower_comma _

theorem numFollower_pmr (ms : JMembers) (d : Nat) (x : List Char) :
    NumFollower (prettyMembersRest ms d ++ '\n' :: x) := by
  cases ms with
  | mnil => simpa [prettyMembersRest] using numFollower_newline x
  | mcons k v rest =>
    rw [show prettyMembersRest (JMembers.mcons k v rest) d ++ '\n' :: x =
      ',' :: ('\n' :: (indentChars d ++ prettyMember k v d ++ prettyMembersRest rest d) ++
        '\n' :: x) from by simp [prettyMembersRest]]
    exact numFollower_comma _

theorem headNot_ws_of_char (c : Char) (x : List Char) (h : ¬ isJsonWs c = true) :
    headNot isJsonWs (c :: x) := by
  intro c2 hc2
  simp only [List.head?_cons, Option.some.injEq] at hc2
  subst hc2
  exact h

theorem parser_complete (fuel : Nat) :
    (∀ v d rest, WFv v → sizeV v ≤ fuel → NumFollower rest →
      parseValueF fuel (prettyValue v d ++ rest) = some (v, rest)) ∧
    (∀ v items d rest, WFv v → WFi items → 1 + sizeV v + sizeI items ≤ fuel → NumFollower rest →
      parseItemsF fuel (prettyValue v (d + 1) ++ (prettyItemsRest items (d + 1) ++
        '\n' :: (indentChars d ++ ']' :: rest))) = some (JItems.icons v items, rest)) ∧
    (∀ k v ms d rest, WFv v → WFm ms → 1 + sizeV v + sizeM ms ≤ fuel → NumFollower rest →
      parseMembersRawF fuel (prettyMember k v (d + 1) ++ (prettyMembersRest ms (d + 1) ++
        '\n' :: (indentChars d ++ '\x7d' :: rest))) =
        some (mPairs (JMembers.mcons k v ms), rest)) := by
  induction fuel with
  | zero =>
    refine ⟨?_, ?_, ?_⟩
    · intro v d rest hwf hsz hrest
      exfalso
      cases v <;> simp [sizeV] at hsz
    · intro v items d rest hv hi hsz hrest
      exact absurd hsz (by omega)
    · intro k v ms d rest hv hm hsz hrest
      exact absurd hsz (by omega)
  | succ fuel ih =>
    obtain ⟨ihV, ihI, ihM⟩ := ih
    refine ⟨?_, ?_, ?_⟩
    · intro v d rest hwf hsz hrest
      cases v with
      | jnull =>
        rw [show prettyValue JValue.jnull d ++ rest = 'n' :: ("ull".data ++ rest) from by
          simp only [prettyValue]; rfl]
        simp only [parseValueF]
        rw [if_pos trivial, expectLit_self]
      | jbool b =>
        cases b with
        | true =>
          rw [show prettyValue (JValue.jbool true) d ++ rest = 't' :: ("rue".data ++ rest)
            from by simp only [prettyValue]; rfl]
          simp only [parseValueF]
          rw [if_neg (by decide), if_pos trivial, expectLit_self]
        | false =>
          rw [show prettyValue (JValue.jbool false) d ++ rest = 'f' :: ("alse".data ++ rest)
            from by simp only [prettyValue]; rfl]
          simp only [parseValueF]
          rw [if_neg (by decide), if_neg (by decide), if_pos trivial, expectLit_self]
      | jnum lexeme =>
        rw [show prettyValue (JValue.jnum lexeme) d = lexeme.data from by
          simp only [prettyValue]]
        exact parseValueF_num fuel lexeme rest hwf hrest
      | jstr s =>
        rw [show prettyValue (JValue.jstr s) d = '"' :: (escChars s.data ++ ['"']) from by
          simp only [prettyValue]]
        exact parseValueF_str fuel s rest
      | jarr items =>
        cases items with
        | inil =>
          rw [show prettyValue (JValue.jarr JItems.inil) d ++ rest = '[' :: (']' :: rest)
            from by simp only [prettyValue]; rfl]
          simp only [parseValueF]
          rw [if_neg (by decide), if_neg (by decide), if_neg (by decide), if_neg (by decide),
            if_pos trivial]
          rw [wsSkip_headNot _ (headNot_ws_of_char ']' rest (by decide))]
          simp
        | icons v1 items2 =>
          obtain ⟨hv1, hi2⟩ := hwf
          rw [show prettyValue (JValue.jarr (JItems.icons v1 items2)) d ++ rest =
            '[' :: ('
' :: (indentChars (d + 1) ++ (prettyValue v1 (d + 1) ++
              (prettyItemsRest items2 (d + 1) ++
                '
' :: (indentChars d ++ ']' :: rest))))) from by
            simp only [prettyValue]; simp]
          simp only [parseValueF]
          rw [if_neg (by decide), if_neg (by decide), if_neg (by decide), if_neg (by decide),
            if_pos trivial]
          rw [wsSkip_cons_ws '
' _ (by decide), wsSkip_indent]
          obtain ⟨c0, t0, hc, hnw, hnb, -⟩ := prettyValue_head v1 (d + 1) hv1
          rw [show prettyValue v1 (d + 1) ++ (prettyItemsRest items2 (d + 1) ++
              '
' :: (indentChars d ++ ']' :: rest)) =
            c0 :: (t0 ++ (prettyItemsRest items2 (d + 1) ++
              '
' :: (indentChars d ++ ']' :: rest))) from by rw [hc]; simp]
          rw [wsSkip_headNot _ (headNot_ws_of_char c0 _ hnw)]
          split
          · rename_i r2 heq
            exact absurd (List.head_eq_of_cons_eq heq) hnb
          · rw [show c0 :: (t0 ++ (prettyItemsRest items2 (d + 1) ++
                '
' :: (indentChars d ++ ']' :: rest))) =
              prettyValue v1 (d + 1) ++ (prettyItemsRest items2 (d + 1) ++
                '
' :: (indentChars d ++ ']' :: rest)) from by rw [hc]; simp]
            rw [ihI v1 items2 d rest hv1 hi2 (by
              simp only [sizeV, sizeI] at hsz ⊢
              omega) hrest]
      | jobj ms =>
        cases ms with
        | mnil =>
          rw [show prettyValue (JValue.jobj JMembers.mnil) d ++ rest =
            '{' :: ('}' :: rest) from by simp only [prettyValue]; rfl]
          simp only [parseValueF]
          rw [if_neg (by decide), if_neg (by decide), if_neg (by decide), if_neg (by decide),
            if_neg (by decide), if_pos trivial]
          rw [wsSkip_headNot _ (headNot_ws_of_char '}' rest (by decide))]
          simp
        | mcons k v1 ms2 =>
          obtain ⟨hnd, hv1, hm2⟩ : (mkeys (JMembers.mcons k v1 ms2)).Nodup ∧ WFv v1 ∧ WFm ms2 :=
            ⟨hwf.1, hwf.2.1, hwf.2.2⟩
          rw [show prettyValue (JValue.jobj (JMembers.mcons k v1 ms2)) d ++ rest =
            '{' :: ('
' :: (indentChars (d + 1) ++ (prettyMember k v1 (d + 1) ++
              (prettyMembersRest ms2 (d + 1) ++
                '
' :: (indentChars d ++ '}' :: rest))))) from by
            simp only [prettyValue]; simp]
          simp only [parseValueF]
          rw [if_neg (by decide), if_neg (by decide), if_neg (by decide), if_neg (by decide),
            if_neg (by decide), if_pos trivial]
          rw [wsSkip_cons_ws '
' _ (by decide), wsSkip_indent]
          rw [show prettyMember k v1 (d + 1) ++ (prettyMembersRest ms2 (d + 1) ++
              '
' :: (indentChars d ++ '}' :: rest)) =
            '"' :: ((escChars k.data ++ ['"', ':', ' '] ++ prettyValue v1 (d + 1)) ++
              (prettyMembersRest ms2 (d + 1) ++
                '
' :: (indentChars d ++ '}' :: rest))) from by
            simp [prettyMember]]
          rw [wsSkip_headNot _ (headNot_ws_of_char '"' _ (by decide))]
          split
          · rename_i r2 heq
            exact absurd (List.head_eq_of_cons_eq heq) (by decide)
          · rw [show ('"' :: ((escChars k.data ++ ['"', ':', ' '] ++ prettyValue v1 (d + 1)) ++
                (prettyMembersRest ms2 (d + 1) ++
                  '
' :: (indentChars d ++ '}' :: rest)))) =
              prettyMember k v1 (d + 1) ++ (prettyMembersRest ms2 (d + 1) ++
                '
' :: (indentChars d ++ '}' :: rest)) from by simp [prettyMember]]
            rw [ihM k v1 ms2 d rest hv1 hm2 (by
              simp only [sizeV, sizeM] at hsz ⊢
              omega) hrest]
            simp only
            rw [buildMembers_mPairs _ hnd]
    · intro v items d rest hv hi hsz hrest
      cases items with
      | inil =>
        rw [show prettyItemsRest JItems.inil (d + 1) ++ '\n' :: (indentChars d ++ ']' :: rest) =
          '\n' :: (indentChars d ++ ']' :: rest) from by simp [prettyItemsRest]]
        have h1 := ihV v (d + 1) ('\n' :: (indentChars d ++ ']' :: rest)) hv
          (by simp only [sizeI] at hsz; omega) (numFollower_newline _)
        have h2 : wsSkip ('\n' :: (indentChars d ++ ']' :: rest)) = ']' :: rest := by
          rw [wsSkip_cons_ws '\n' _ (by decide), wsSkip_indent,
            wsSkip_headNot _ (headNot_ws_of_char ']' rest (by decide))]
        simp [parseItemsF, h1, h2]
      | icons v2 items3 =>
        obtain ⟨hv2, hi3⟩ := hi
        rw [show prettyItemsRest (JItems.icons v2 items3) (d + 1) ++
            '\n' :: (indentChars d ++ ']' :: rest) =
          ',' :: ('\n' :: (indentChars (d + 1) ++ (prettyValue v2 (d + 1) ++
            (prettyItemsRest items3 (d + 1) ++ '\n' :: (indentChars d ++ ']' :: rest)))))
          from by simp [prettyItemsRest]]
        have h1 := ihV v (d + 1) (',' :: ('\n' :: (indentChars (d + 1) ++
            (prettyValue v2 (d + 1) ++ (prettyItemsRest items3 (d + 1) ++
              '\n' :: (indentChars d ++ ']' :: rest)))))) hv
          (by simp only [sizeI] at hsz; omega) (numFollower_comma _)
        have h2 : wsSkip (',' :: ('\n' :: (indentChars (d + 1) ++
            (prettyValue v2 (d + 1) ++ (prettyItemsRest items3 (d + 1) ++
              '\n' :: (indentChars d ++ ']' :: rest)))))) =
          ',' :: ('\n' :: (indentChars (d + 1) ++ (prettyValue v2 (d + 1) ++
            (prettyItemsRest items3 (d + 1) ++ '\n' :: (indentChars d ++ ']' :: rest))))) :=
          wsSkip_headNot _ (headNot_ws_of_char ',' _ (by decide))
        obtain ⟨c0, t0, hc, hnw, -, -⟩ := prettyValue_head v2 (d + 1) hv2
        have h3 : wsSkip ('\n' :: (indentChars (d + 1) ++ (prettyValue v2 (d + 1) ++
            (prettyItemsRest items3 (d + 1) ++ '\n' :: (indentChars d ++ ']' :: rest))))) =
          prettyValue v2 (d + 1) ++ (prettyItemsRest items3 (d + 1) ++
            '\n' :: (indentChars d ++ ']' :: rest)) := by
          rw [wsSkip_cons_ws '\n' _ (by decide), wsSkip_indent]
          rw [show prettyValue v2 (d + 1) ++ (prettyItemsRest items3 (d + 1) ++
              '\n' :: (indentChars d ++ ']' :: rest)) =
            c0 :: (t0 ++ (prettyItemsRest items3 (d + 1) ++
              '\n' :: (indentChars d ++ ']' :: rest))) from by rw [hc]; simp]
          exact wsSkip_headNot _ (headNot_ws_of_char c0 _ hnw)
        have h4 := ihI v2 items3 d rest hv2 hi3
          (by simp only [sizeI] at hsz; omega) hrest
        simp [parseItemsF, h1, h2, h3, h4]
    · intro k v ms d rest hv hm hsz hrest
      have h1 : ∀ z : List Char, parseStringLit (escChars k.data ++ '"' :: z) =
          some (k.data, z) := fun z => parseStringLit_complete k.data z
      have hkeq : (String.mk k.data) = k := rfl
      obtain ⟨c0, t0, hc, hnw, -, -⟩ := prettyValue_head v (d + 1) hv
      cases ms with
      | mnil =>
        rw [show prettyMember k v (d + 1) ++ (prettyMembersRest JMembers.mnil (d + 1) ++
            '\n' :: (indentChars d ++ '\x7d' :: rest)) =
          '"' :: (escChars k.data ++ '"' :: (':' :: ' ' :: (prettyValue v (d + 1) ++
            '\n' :: (indentChars d ++ '\x7d' :: rest)))) from by
          simp [prettyMember, prettyMembersRest]]
        have h2 : wsSkip (':' :: ' ' :: (prettyValue v (d + 1) ++
            '\n' :: (indentChars d ++ '\x7d' :: rest))) =
          ':' :: ' ' :: (prettyValue v (d + 1) ++ '\n' :: (indentChars d ++ '\x7d' :: rest)) :=
          wsSkip_headNot _ (headNot_ws_of_char ':' _ (by decide))
        have h3 : wsSkip (' ' :: (prettyValue v (d + 1) ++
            '\n' :: (indentChars d ++ '\x7d' :: rest))) =
          prettyValue v (d + 1) ++ '\n' :: (indentChars d ++ '\x7d' :: rest) := by
          rw [wsSkip_cons_ws ' ' _ (by decide)]
          rw [show prettyValue v (d + 1) ++ '\n' :: (indentChars d ++ '\x7d' :: rest) =
            c0 :: (t0 ++ '\n' :: (indentChars d ++ '\x7d' :: rest)) from by rw [hc]; simp]
          exact wsSkip_headNot _ (headNot_ws_of_char c0 _ hnw)
        have h4 := ihV v (d + 1) ('\n' :: (indentChars d ++ '\x7d' :: rest)) hv
          (by simp only [sizeM] at hsz; omega) (numFollower_newline _)
        have h5 : wsSkip ('\n' :: (indentChars d ++ '\x7d' :: rest)) = '\x7d' :: rest := by
          rw [wsSkip_cons_ws '\n' _ (by decide), wsSkip_indent,
            wsSkip_headNot _ (headNot_ws_of_char '\x7d' rest (by decide))]
        simp [parseMembersRawF, h1, h2, h3, h4, h5, mPairs, hkeq]
      | mcons k2 v2 ms3 =>
        obtain ⟨hv2, hm3⟩ := hm
        rw [show prettyMember k v (d + 1) ++
            (prettyMembersRest (JMembers.mcons k2 v2 ms3) (d + 1) ++
              '\n' :: (indentChars d ++ '\x7d' :: rest)) =
          '"' :: (escChars k.data ++ '"' :: (':' :: ' ' :: (prettyValue v (d + 1) ++
            ',' :: ('\n' :: (indentChars (d + 1) ++ (prettyMember k2 v2 (d + 1) ++
              (prettyMembersRest ms3 (d + 1) ++
                '\n' :: (indentChars d ++ '\x7d' :: rest)))))))) from by
          simp [prettyMember, prettyMembersRest]]
        have h2 : wsSkip (':' :: ' ' :: (prettyValue v (d + 1) ++
            ',' :: ('\n' :: (indentChars (d + 1) ++ (prettyMember k2 v2 (d + 1) ++
              (prettyMembersRest ms3 (d + 1) ++
                '\n' :: (indentChars d ++ '\x7d' :: rest))))))) =
          ':' :: ' ' :: (prettyValue v (d + 1) ++
            ',' :: ('\n' :: (indentChars (d + 1) ++ (prettyMember k2 v2 (d + 1) ++
              (prettyMembersRest ms3 (d + 1) ++
                '\n' :: (indentChars d ++ '\x7d' :: rest)))))) :=
          wsSkip_headNot _ (headNot_ws_of_char ':' _ (by decide))
        have h3 : wsSkip (' ' :: (prettyValue v (d + 1) ++
            ',' :: ('\n' :: (indentChars (d + 1) ++ (prettyMember k2 v2 (d + 1) ++
              (prettyMembersRest ms3 (d + 1) ++
                '\n' :: (indentChars d ++ '\x7d' :: rest))))))) =
          prettyValue v (d + 1) ++ ',' :: ('\n' :: (indentChars (d + 1) ++
            (prettyMember k2 v2 (d + 1) ++ (prettyMembersRest ms3 (d + 1) ++
              '\n' :: (indentChars d ++ '\x7d' :: rest))))) := by
          rw [wsSkip_cons_ws ' ' _ (by decide)]
          rw [show prettyValue v (d + 1) ++ ',' :: ('\n' :: (indentChars (d + 1) ++
              (prettyMember k2 v2 (d + 1) ++ (prettyMembersRest ms3 (d + 1) ++
                '\n' :: (indentChars d ++ '\x7d' :: rest))))) =
            c0 :: (t0 ++ ',' :: ('\n' :: (indentChars (d + 1) ++
              (prettyMember k2 v2 (d + 1) ++ (prettyMembersRest ms3 (d + 1) ++
                '\n' :: (indentChars d ++ '\x7d' :: rest)))))) from by rw [hc]; simp]
          exact wsSkip_headNot _ (headNot_ws_of_char c0 _ hnw)
        have h4 := ihV v (d + 1) (',' :: ('\n' :: (indentChars (d + 1) ++
            (prettyMember k2 v2 (d + 1) ++ (prettyMembersRest ms3 (d + 1) ++
              '\n' :: (indentChars d ++ '\x7d' :: rest)))))) hv
          (by simp only [sizeM] at hsz; omega) (numFollower_comma _)
        have h5 : wsSkip (',' :: ('\n' :: (indentChars (d + 1) ++
            (prettyMember k2 v2 (d + 1) ++ (prettyMembersRest ms3 (d + 1) ++
              '\n' :: (indentChars d ++ '\x7d' :: rest)))))) =
          ',' :: ('\n' :: (indentChars (d + 1) ++ (prettyMember k2 v2 (d + 1) ++
            (prettyMembersRest ms3 (d + 1) ++
              '\n' :: (indentChars d ++ '\x7d' :: rest))))) :=
          wsSkip_headNot _ (headNot_ws_of_char ',' _ (by decide))
        have h6 : wsSkip ('\n' :: (indentChars (d + 1) ++ (prettyMember k2 v2 (d + 1) ++
            (prettyMembersRest ms3 (d + 1) ++
              '\n' :: (indentChars d ++ '\x7d' :: rest))))) =
          prettyMember k2 v2 (d + 1) ++ (prettyMembersRest ms3 (d + 1) ++
            '\n' :: (indentChars d ++ '\x7d' :: rest)) := by
          rw [wsSkip_cons_ws '\n' _ (by decide), wsSkip_indent]
          rw [show prettyMember k2 v2 (d + 1) ++ (prettyMembersRest ms3 (d + 1) ++
              '\n' :: (indentChars d ++ '\x7d' :: rest)) =
            '"' :: ((escChars k2.data ++ ['"', ':', ' '] ++ prettyValue v2 (d + 1)) ++
              (prettyMembersRest ms3 (d + 1) ++
                '\n' :: (indentChars d ++ '\x7d' :: rest))) from by simp [prettyMember]]
          exact wsSkip_headNot _ (headNot_ws_of_char '"' _ (by decide))
        have h7 := ihM k2 v2 ms3 d rest hv2 hm3
          (by simp only [sizeM] at hsz; omega) hrest
        simp [parseMembersRawF, h1, h2, h3, h4, h5, h6, h7, mPairs, hkeq]

/-! ## Round trip -/

mutual

theorem sizeV_le_pretty : ∀ (v : JValue) (d : Nat), sizeV v ≤ (prettyValue v d).length + 1
  | JValue.jnull, d => by simp [sizeV, prettyValue]
  | JValue.jbool true, d => by simp [sizeV, prettyValue]
  | JValue.jbool false, d => by simp [sizeV, prettyValue]
  | JValue.jnum lexeme, d => by simp [sizeV, prettyValue]
  | JValue.jstr s, d => by simp [sizeV, prettyValue]
  | JValue.jarr JItems.inil, d => by simp [sizeV, sizeI, prettyValue]
  | JValue.jarr (JItems.icons v r), d => by
    have h1 := sizeV_le_pretty v (d + 1)
    have h2 := sizeI_le_pretty r (d + 1)
    simp only [sizeV, sizeI, prettyValue, List.length_cons, List.length_append]
    omega
  | JValue.jobj JMembers.mnil, d => by simp [sizeV, sizeM, prettyValue]
  | JValue.jobj (JMembers.mcons k v r), d => by
    have h1 := sizeV_le_pretty v (d + 1)
    have h2 := sizeM_le_pretty r (d + 1)
    simp only [sizeV, sizeM, prettyValue, prettyMember, List.length_cons, List.length_append]
    omega

theorem sizeI_le_pretty : ∀ (it : JItems) (d : Nat), sizeI it ≤ (prettyItemsRest it d).length
  | JItems.inil, d => by simp [sizeI, prettyItemsRest]
  | JItems.icons v r, d => by
    have h1 := sizeV_le_pretty v d
    have h2 := sizeI_le_pretty r d
    simp only [sizeI, prettyItemsRest, List.length_cons, List.length_append]
    omega

theorem sizeM_le_pretty : ∀ (ms : JMembers) (d : Nat), sizeM ms ≤ (prettyMembersRest ms d).length
  | JMembers.mnil, d => by simp [sizeM, prettyMembersRest]
  | JMembers.mcons k v r, d => by
    have h1 := sizeV_le_pretty v d
    have h2 := sizeM_le_pretty r d
    simp only [sizeM, prettyMembersRest, prettyMember, List.length_cons, List.length_append]
    omega

end

/-- The canonical text of a well-formed value parses back to the value
itself. -/
theorem parseJson_prettyText (v : JValue) (hwf : WFv v) :
    parseJson (prettyText v) = some v := by
  unfold parseJson prettyText
  rw [show (String.mk (prettyValue v 0)).data = prettyValue v 0 from rfl]
  obtain ⟨c0, t0, hc, hnw, -, -⟩ := prettyValue_head v 0 hwf
  have hws : wsSkip (prettyValue v 0) = prettyValue v 0 := by
    rw [hc]
    exact wsSkip_headNot _ (headNot_ws_of_char c0 _ hnw)
  rw [hws]
  have hcomp := (parser_complete ((prettyValue v 0).length + 1)).1 v 0 [] hwf
    (sizeV_le_pretty v 0) numFollower_nil
  rw [List.append_nil] at hcomp
  rw [hcomp]
  simp [wsSkip]

/-- Values produced by the parser are well-formed. -/
theorem parseJson_wf (s : String) (v : JValue) (h : parseJson s = some v) : WFv v := by
  unfold parseJson at h
  split at h
  · rename_i v2 rest hv2
    split_ifs at h
    simp only [Option.some.injEq] at h
    subst h
    exact (parser_wf _).1 _ _ _ hv2
  · simp at h

/-- The canonical text of a well-formed value is never empty. -/
theorem prettyText_ne_empty (v : JValue) (hwf : WFv v) : prettyText v ≠ "" := by
  obtain ⟨c0, t0, hc, -, -, -⟩ := prettyValue_head v 0 hwf
  unfold prettyText
  rw [hc]
  intro hcon
  have : (c0 :: t0 : List Char) = "".data := congrArg String.data hcon
  simp at this

/-! ## Claim theorems -/

/-! ## Key order: keyScan equations and skipping lemmas -/

theorem keyScan_nil : keyScan [] = [] := by
  simp [keyScan]

theorem keyScan_cons_other (c : Char) (x : List Char) (h : ¬ c = '"') :
    keyScan (c :: x) = keyScan x := by
  simp only [keyScan]
  rw [if_neg h]

theorem keyScan_quote_key (rest body rest2 : List Char)
    (h : parseStringLit rest = some (body, rest2))
    (hc : (wsSkip rest2).head? = some ':') :
    keyScan ('"' :: rest) = String.mk body :: keyScan rest2 := by
  simp only [keyScan]
  rw [if_pos trivial]
  split
  · rename_i b2 r2 hs
    rw [h] at hs
    simp only [Option.some.injEq, Prod.mk.injEq] at hs
    obtain ⟨rfl, rfl⟩ := hs
    rw [if_pos hc]
  · rename_i hs
    rw [h] at hs
    simp at hs

theorem keyScan_quote_nonkey (rest body rest2 : List Char)
    (h : parseStringLit rest = some (body, rest2))
    (hc : ¬ (wsSkip rest2).head? = some ':') :
    keyScan ('"' :: rest) = keyScan rest2 := by
  simp only [keyScan]
  rw [if_pos trivial]
  split
  · rename_i b2 r2 hs
    rw [h] at hs
    simp only [Option.some.injEq, Prod.mk.injEq] at hs
    obtain ⟨rfl, rfl⟩ := hs
    rw [if_neg hc]
  · rename_i hs
    rw [h] at hs
    simp at hs

theorem keyScan_noquote_append (a x : List Char) (h : ∀ c ∈ a, ¬ c = '"') :
    keyScan (a ++ x) = keyScan x := by
  induction a with
  | nil => rfl
  | cons c a ih =>
    rw [List.cons_append, keyScan_cons_other c _ (h c (by simp))]
    exact ih (fun c2 hc2 => h c2 (by simp [hc2]))

theorem jsonWs_ne_quote (c : Char) (h : isJsonWs c = true) : ¬ c = '"' := by
  intro hq
  subst hq
  simp [isJsonWs] at h

theorem keyScan_wsSkip (cs : List Char) : keyScan cs = keyScan (wsSkip cs) := by
  conv_lhs => rw [← List.takeWhile_append_dropWhile (p := isJsonWs) (l := cs)]
  exact keyScan_noquote_append _ _
    (fun c hc => jsonWs_ne_quote c (List.mem_takeWhile_imp hc))

theorem keyScan_ws_nil (cs : List Char) (h : wsSkip cs = []) : keyScan cs = [] := by
  rw [keyScan_wsSkip, h, keyScan_nil]

theorem digit_ne_quote (c : Char) (h : c.isDigit = true) : ¬ c = '"' := by
  have := isDigit_toNat c h
  exact char_toNat_ne c '"' (by
    rw [show ('"' : Char).toNat = 34 from rfl]
    omega)

theorem numParts_no_quote (lex : List Char) (h : NumParts lex) :
    ∀ c ∈ lex, ¬ c = '"' := by
  obtain ⟨sgn, ip, fp, ep, hs, hi, hf, he, rfl⟩ := h
  intro c hc
  simp only [List.mem_append] at hc
  rcases hc with ((hc | hc) | hc) | hc
  · rcases hs with rfl | rfl
    · simp at hc
    · simp only [List.mem_singleton] at hc
      subst hc
      decide
  · rcases hi with rfl | ⟨d, ds, rfl, hd, -, hds⟩
    · simp only [List.mem_singleton] at hc
      subst hc
      decide
    · rcases List.mem_cons.mp hc with rfl | hc2
      · exact digit_ne_quote c hd
      · exact digit_ne_quote c (hds c hc2)
  · rcases hf with rfl | ⟨ds, rfl, -, hds⟩
    · simp at hc
    · rcases List.mem_cons.mp hc with rfl | hc2
      · decide
      · exact digit_ne_quote c (hds c hc2)
  · rcases he with rfl | ⟨e, sg, ds, he2, hsg, -, hds, rfl⟩
    · simp at hc
    · rcases List.mem_cons.mp hc with rfl | hc2
      · rcases he2 with rfl | rfl <;> decide
      · rcases List.mem_append.mp hc2 with hc3 | hc3
        · rcases hsg with rfl | rfl | rfl
          · simp at hc3
          · simp only [List.mem_singleton] at hc3
            subst hc3
            decide
          · simp only [List.mem_singleton] at hc3
            subst hc3
            decide
        · exact digit_ne_quote c (hds c hc3)

theorem mkeys_rawToMembers : ∀ raw : List (String × JValue),
    mkeys (rawToMembers raw) = raw.map Prod.fst
  | [] => rfl
  | (k, v) :: rest => by
    simp [rawToMembers, mkeys, mkeys_rawToMembers rest]

theorem mPairs_rawToMembers : ∀ raw : List (String × JValue),
    mPairs (rawToMembers raw) = raw
  | [] => rfl
  | (k, v) :: rest => by
    simp [rawToMembers, mPairs, mPairs_rawToMembers rest]

theorem preKeysM_rawToMembers : ∀ raw : List (String × JValue),
    preKeysM (rawToMembers raw) = rawKeys raw
  | [] => rfl
  | (k, v) :: rest => by
    simp [rawToMembers, preKeysM, rawKeys, preKeysM_rawToMembers rest]

theorem map_fst_sublist_rawKeys : ∀ raw : List (String × JValue),
    (raw.map Prod.fst).Sublist (rawKeys raw)
  | [] => List.Sublist.refl []
  | (k, v) :: rest => by
    simp only [List.map_cons, rawKeys, List.flatMap_cons]
    exact List.Sublist.cons₂ k
      ((map_fst_sublist_rawKeys rest).trans (List.sublist_append_right _ _))

theorem buildMembers_nodup_keys (raw : List (String × JValue))
    (h : (rawKeys raw).Nodup) : buildMembers raw = rawToMembers raw := by
  have hfst : (raw.map Prod.fst).Nodup := h.sublist (map_fst_sublist_rawKeys raw)
  have := buildMembers_mPairs (rawToMembers raw)
    (by rw [mkeys_rawToMembers]; exact hfst)
  rw [mPairs_rawToMembers] at this
  exact this

theorem preKeysM_buildMembers (raw : List (String × JValue))
    (h : (rawKeys raw).Nodup) : preKeysM (buildMembers raw) = rawKeys raw := by
  rw [buildMembers_nodup_keys raw h, preKeysM_rawToMembers]

theorem preKeysM_mcat : ∀ a b : JMembers, preKeysM (mcat a b) = preKeysM a ++ preKeysM b
  | JMembers.mnil, b => by simp [mcat, preKeysM]
  | JMembers.mcons k v rest, b => by
    simp [mcat, preKeysM, preKeysM_mcat rest b]

theorem minsert_mem_preKeys_le : ∀ (ms : JMembers) (k : String) (v : JValue), k ∈ mkeys ms →
    (preKeysM (minsert ms k v)).length ≤ (preKeysM ms).length + (preKeysV v).length
  | JMembers.mnil, k, v, h => by simp [mkeys] at h
  | JMembers.mcons k0 v0 rest, k, v, h => by
    simp only [minsert]
    by_cases hk : k0 = k
    · rw [if_pos hk]
      simp only [preKeysM, List.length_cons, List.length_append]
      omega
    · rw [if_neg hk]
      have hmem : k ∈ mkeys rest := by
        simp only [mkeys, List.mem_cons] at h
        rcases h with h | h
        · exact absurd h.symm hk
        · exact h
      have hrec := minsert_mem_preKeys_le rest k v hmem
      simp only [preKeysM, List.length_cons, List.length_append]
      omega

theorem rawKeys_cons (k : String) (v : JValue) (rest : List (String × JValue)) :
    rawKeys ((k, v) :: rest) = (k :: preKeysV v) ++ rawKeys rest := by
  simp [rawKeys]

theorem buildMembers_go_preKeys : ∀ (raw : List (String × JValue)) (acc : JMembers),
    (preKeysM (raw.foldl (fun a kv => minsert a kv.1 kv.2) acc)).length ≤
      (preKeysM acc).length + (rawKeys raw).length ∧
    ((preKeysM (raw.foldl (fun a kv => minsert a kv.1 kv.2) acc)).length =
        (preKeysM acc).length + (rawKeys raw).length →
      raw.foldl (fun a kv => minsert a kv.1 kv.2) acc = mcat acc (rawToMembers raw))
  | [], acc => by
    constructor
    · simp [rawKeys]
    · intro _
      simp [rawToMembers, mcat_mnil]
  | (k, v) :: rest, acc => by
    simp only [List.foldl_cons, rawKeys_cons, List.length_append, List.length_cons]
    by_cases hk : k ∈ mkeys acc
    · obtain ⟨hle, -⟩ := buildMembers_go_preKeys rest (minsert acc k v)
      have hx := minsert_mem_preKeys_le acc k v hk
      constructor
      · omega
      · intro heq
        exfalso
        omega
    · rw [minsert_not_mem acc k v hk]
      obtain ⟨hle, heqc⟩ := buildMembers_go_preKeys rest
        (mcat acc (JMembers.mcons k v JMembers.mnil))
      have hacc : (preKeysM (mcat acc (JMembers.mcons k v JMembers.mnil))).length =
          (preKeysM acc).length + 1 + (preKeysV v).length := by
        simp only [preKeysM_mcat, preKeysM, List.length_append, List.length_cons,
          List.length_nil]
        omega
      constructor
      · omega
      · intro heq
        rw [heqc (by omega), mcat_assoc]
        rfl

theorem buildMembers_preKeys_le (raw : List (String × JValue)) :
    (preKeysM (buildMembers raw)).length ≤ (rawKeys raw).length := by
  have h := (buildMembers_go_preKeys raw JMembers.mnil).1
  simpa [buildMembers, preKeysM] using h

theorem buildMembers_preKeys_eq (raw : List (String × JValue))
    (h : (preKeysM (buildMembers raw)).length = (rawKeys raw).length) :
    preKeysM (buildMembers raw) = rawKeys raw := by
  have h2 := (buildMembers_go_preKeys raw JMembers.mnil).2
    (by simpa [buildMembers, preKeysM] using h)
  unfold buildMembers
  rw [show (List.foldl (fun acc kv => minsert acc kv.1 kv.2) JMembers.mnil raw) =
    mcat JMembers.mnil (rawToMembers raw) from h2]
  rw [show mcat JMembers.mnil (rawToMembers raw) = rawToMembers raw from rfl]
  exact preKeysM_rawToMembers raw

theorem keyScan_parse (fuel : Nat) :
    (∀ cs v rest, parseValueF fuel cs = some (v, rest) →
      ¬ (wsSkip rest).head? = some ':' →
      ∃ ks, keyScan cs = ks ++ keyScan rest ∧ (preKeysV v).length ≤ ks.length ∧
        (ks.length = (preKeysV v).length → ks = preKeysV v)) ∧
    (∀ cs it rest, parseItemsF fuel cs = some (it, rest) →
      ∃ ks, keyScan cs = ks ++ keyScan rest ∧ (preKeysI it).length ≤ ks.length ∧
        (ks.length = (preKeysI it).length → ks = preKeysI it)) ∧
    (∀ cs raw rest, parseMembersRawF fuel cs = some (raw, rest) →
      ∃ ks, keyScan cs = ks ++ keyScan rest ∧ (rawKeys raw).length ≤ ks.length ∧
        (ks.length = (rawKeys raw).length → ks = rawKeys raw)) := by
  induction fuel with
  | zero =>
    refine ⟨?_, ?_, ?_⟩ <;> intro cs a r h <;>
      simp [parseValueF, parseItemsF, parseMembersRawF] at h
  | succ fuel ih =>
    obtain ⟨ihV, ihI, ihM⟩ := ih
    refine ⟨?_, ?_, ?_⟩
    · intro cs v rest h hnc
      match cs with
      | [] => simp [parseValueF] at h
      | c :: tail =>
        simp only [parseValueF] at h
        split_ifs at h with h1 h2 h3 h4 h5 h6 h7
        · subst h1
          split at h
          · rename_i r he
            simp only [Option.some.injEq, Prod.mk.injEq] at h
            obtain ⟨rfl, rfl⟩ := h
            refine ⟨[], ?_, by simp [preKeysV], fun _ => by simp [preKeysV]⟩
            rw [keyScan_cons_other _ _ (by decide), expectLit_append _ _ _ he,
              keyScan_noquote_append _ _ (by decide), List.nil_append]
          · simp at h
        · subst h2
          split at h
          · rename_i r he
            simp only [Option.some.injEq, Prod.mk.injEq] at h
            obtain ⟨rfl, rfl⟩ := h
            refine ⟨[], ?_, by simp [preKeysV], fun _ => by simp [preKeysV]⟩
            rw [keyScan_cons_other _ _ (by decide), expectLit_append _ _ _ he,
              keyScan_noquote_append _ _ (by decide), List.nil_append]
          · simp at h
        · subst h3
          split at h
          · rename_i r he
            simp only [Option.some.injEq, Prod.mk.injEq] at h
            obtain ⟨rfl, rfl⟩ := h
            refine ⟨[], ?_, by simp [preKeysV], fun _ => by simp [preKeysV]⟩
            rw [keyScan_cons_other _ _ (by decide), expectLit_append _ _ _ he,
              keyScan_noquote_append _ _ (by decide), List.nil_append]
          · simp at h
        · subst h4
          split at h
          · rename_i body r hsl
            simp only [Option.some.injEq, Prod.mk.injEq] at h
            obtain ⟨rfl, rfl⟩ := h
            refine ⟨[], ?_, by simp [preKeysV], fun _ => by simp [preKeysV]⟩
            rw [keyScan_quote_nonkey _ _ _ hsl hnc, List.nil_append]
          · simp at h
        · subst h5
          split at h
          · rename_i r hws
            simp only [Option.some.injEq, Prod.mk.injEq] at h
            obtain ⟨rfl, rfl⟩ := h
            refine ⟨[], ?_, by simp [preKeysV, preKeysI],
              fun _ => by simp [preKeysV, preKeysI]⟩
            rw [keyScan_cons_other _ _ (by decide), keyScan_wsSkip, hws,
              keyScan_cons_other _ _ (by decide), List.nil_append]
          · split at h
            · rename_i items r2 hit
              simp only [Option.some.injEq, Prod.mk.injEq] at h
              obtain ⟨rfl, rfl⟩ := h
              obtain ⟨ks, hks, hle, himp⟩ := ihI _ _ _ hit
              refine ⟨ks, ?_, ?_, ?_⟩
              · rw [keyScan_cons_other _ _ (by decide), keyScan_wsSkip, hks]
              · simp only [preKeysV]
                exact hle
              · intro hl
                simp only [preKeysV] at hl ⊢
                exact himp hl
            · simp at h
        · subst h6
          split at h
          · rename_i r hws
            simp only [Option.some.injEq, Prod.mk.injEq] at h
            obtain ⟨rfl, rfl⟩ := h
            refine ⟨[], ?_, by simp [preKeysV, preKeysM],
              fun _ => by simp [preKeysV, preKeysM]⟩
            rw [keyScan_cons_other _ _ (by decide), keyScan_wsSkip, hws,
              keyScan_cons_other _ _ (by decide), List.nil_append]
          · split at h
            · rename_i raw r2 hraw
              simp only [Option.some.injEq, Prod.mk.injEq] at h
              obtain ⟨rfl, rfl⟩ := h
              obtain ⟨ks, hks, hle, himp⟩ := ihM _ _ _ hraw
              have hble := buildMembers_preKeys_le raw
              refine ⟨ks, ?_, ?_, ?_⟩
              · rw [keyScan_cons_other _ _ (by decide), keyScan_wsSkip, hks]
              · simp only [preKeysV]
                omega
              · intro hl
                simp only [preKeysV] at hl ⊢
                have h1 : ks.length = (rawKeys raw).length := by omega
                have h2 : (preKeysM (buildMembers raw)).length = (rawKeys raw).length := by
                  omega
                rw [himp h1, ← buildMembers_preKeys_eq raw h2]
            · simp at h
        · split at h
          · rename_i lex r hnum
            simp only [Option.some.injEq, Prod.mk.injEq] at h
            obtain ⟨rfl, rfl⟩ := h
            obtain ⟨hdec, hnp⟩ := parseNumber_spec _ _ _ hnum
            refine ⟨[], ?_, by simp [preKeysV], fun _ => by simp [preKeysV]⟩
            rw [hdec, keyScan_noquote_append _ _ (numParts_no_quote _ hnp),
              List.nil_append]
          · simp at h
    · intro cs it rest h
      simp only [parseItemsF] at h
      split at h
      · rename_i v r1 hv
        split at h
        · rename_i r2 hws
          split at h
          · rename_i items r3 hits
            simp only [Option.some.injEq, Prod.mk.injEq] at h
            obtain ⟨rfl, rfl⟩ := h
            obtain ⟨ksv, hkv, hlev, himv⟩ := ihV _ _ _ hv (by rw [hws]; simp)
            obtain ⟨ksi, hki, hlei, himi⟩ := ihI _ _ _ hits
            refine ⟨ksv ++ ksi, ?_, ?_, ?_⟩
            · rw [hkv, keyScan_wsSkip r1, hws, keyScan_cons_other _ _ (by decide),
                keyScan_wsSkip r2, hki, List.append_assoc]
            · simp only [preKeysI, List.length_append]
              omega
            · intro hl
              simp only [preKeysI, List.length_append] at hl ⊢
              have h1 : ksv.length = (preKeysV v).length := by omega
              have h2 : ksi.length = (preKeysI items).length := by omega
              rw [himv h1, himi h2]
          · simp at h
        · rename_i r2 hws
          simp only [Option.some.injEq, Prod.mk.injEq] at h
          obtain ⟨rfl, rfl⟩ := h
          obtain ⟨ksv, hkv, hlev, himv⟩ := ihV _ _ _ hv (by rw [hws]; simp)
          refine ⟨ksv, ?_, ?_, ?_⟩
          · rw [hkv, keyScan_wsSkip r1, hws, keyScan_cons_other _ _ (by decide)]
          · simpa [preKeysI] using hlev
          · intro hl
            simp only [preKeysI, List.length_append, List.length_nil,
              List.append_nil] at hl ⊢
            exact himv (by omega)
        · simp at h
      · simp at h
    · intro cs raw rest h
      simp only [parseMembersRawF] at h
      split at h
      · rename_i tail
        split at h
        · rename_i kChars r1 hk
          split at h
          · rename_i r2 hws1
            split at h
            · rename_i v r3 hv
              split at h
              · rename_i r4 hws2
                split at h
                · rename_i raw2 r5 hraw2
                  simp only [Option.some.injEq, Prod.mk.injEq] at h
                  obtain ⟨rfl, rfl⟩ := h
                  obtain ⟨ksv, hkv, hlev, himv⟩ := ihV _ _ _ hv (by rw [hws2]; simp)
                  obtain ⟨ksm, hkm, hlem, himm⟩ := ihM _ _ _ hraw2
                  refine ⟨String.mk kChars :: (ksv ++ ksm), ?_, ?_, ?_⟩
                  · rw [keyScan_quote_key _ _ _ hk (by rw [hws1]; rfl),
                      keyScan_wsSkip r1, hws1, keyScan_cons_other _ _ (by decide),
                      keyScan_wsSkip r2, hkv, keyScan_wsSkip r3, hws2,
                      keyScan_cons_other _ _ (by decide), keyScan_wsSkip r4, hkm]
                    simp
                  · rw [rawKeys_cons]
                    simp only [List.length_append, List.length_cons]
                    omega
                  · intro hl
                    rw [rawKeys_cons] at hl ⊢
                    simp only [List.length_append, List.length_cons] at hl
                    have h1 : ksv.length = (preKeysV v).length := by omega
                    have h2 : ksm.length = (rawKeys raw2).length := by omega
                    rw [himv h1, himm h2]
                    simp
                · simp at h
              · rename_i r4 hws2
                simp only [Option.some.injEq, Prod.mk.injEq] at h
                obtain ⟨rfl, rfl⟩ := h
                obtain ⟨ksv, hkv, hlev, himv⟩ := ihV _ _ _ hv (by rw [hws2]; simp)
                refine ⟨String.mk kChars :: ksv, ?_, ?_, ?_⟩
                · rw [keyScan_quote_key _ _ _ hk (by rw [hws1]; rfl),
                    keyScan_wsSkip r1, hws1, keyScan_cons_other _ _ (by decide),
                    keyScan_wsSkip r2, hkv, keyScan_wsSkip r3, hws2,
                    keyScan_cons_other _ _ (by decide)]
                  simp
                · rw [rawKeys_cons]
                  simp only [rawKeys, List.flatMap_nil, List.append_nil,
                    List.length_cons, List.length_append, List.length_nil]
                  omega
                · intro hl
                  rw [rawKeys_cons] at hl ⊢
                  simp only [rawKeys, List.flatMap_nil, List.append_nil,
                    List.length_cons, List.length_append, List.length_nil] at hl ⊢
                  rw [himv (by omega)]
              · simp at h
            · simp at h
          · simp at h
        · simp at h
      · simp at h

theorem indent_no_quote (d : Nat) : ∀ c ∈ indentChars d, ¬ c = '"' := by
  intro c hc
  rw [List.eq_of_mem_replicate hc]
  decide

theorem keyScan_indent (d : Nat) (x : List Char) :
    keyScan (indentChars d ++ x) = keyScan x :=
  keyScan_noquote_append _ _ (indent_no_quote d)

theorem wsSkip_cons_notWs (c : Char) (x : List Char) (h : ¬ isJsonWs c = true) :
    wsSkip (c :: x) = c :: x := by
  simp [wsSkip, List.dropWhile_cons, h]

theorem notColon_of_head (c : Char) (x : List Char) (hws : ¬ isJsonWs c = true)
    (hc : ¬ c = ':') : ¬ (wsSkip (c :: x)).head? = some ':' := by
  rw [wsSkip_cons_notWs c x hws]
  simpa using hc

theorem notColon_close (d : Nat) (close : Char) (tail : List Char)
    (hws : ¬ isJsonWs close = true) (hc : ¬ close = ':') :
    ¬ (wsSkip ('\n' :: (indentChars d ++ close :: tail))).head? = some ':' := by
  rw [wsSkip_cons_ws _ _ (by decide), wsSkip_indent]
  exact notColon_of_head close tail hws hc

theorem notColon_itemsRest (it : JItems) (d : Nat) (z : List Char)
    (hz : ¬ (wsSkip z).head? = some ':') :
    ¬ (wsSkip (prettyItemsRest it d ++ z)).head? = some ':' := by
  cases it with
  | inil => simpa [prettyItemsRest] using hz
  | icons v r =>
    simp only [prettyItemsRest, List.cons_append]
    exact notColon_of_head ',' _ (by decide) (by decide)

theorem notColon_membersRest (ms : JMembers) (d : Nat) (z : List Char)
    (hz : ¬ (wsSkip z).head? = some ':') :
    ¬ (wsSkip (prettyMembersRest ms d ++ z)).head? = some ':' := by
  cases ms with
  | mnil => simpa [prettyMembersRest] using hz
  | mcons k v r =>
    simp only [prettyMembersRest, List.cons_append]
    exact notColon_of_head ',' _ (by decide) (by decide)

mutual

theorem keyScan_prettyV : ∀ (v : JValue) (d : Nat) (tail : List Char), WFv v →
    ¬ (wsSkip tail).head? = some ':' →
    keyScan (prettyValue v d ++ tail) = preKeysV v ++ keyScan tail
  | JValue.jnull, d, tail, _, _ => by
    simp only [prettyValue, preKeysV]
    rw [keyScan_noquote_append _ _ (by decide), List.nil_append]
  | JValue.jbool true, d, tail, _, _ => by
    simp only [prettyValue, preKeysV]
    rw [keyScan_noquote_append _ _ (by decide), List.nil_append]
  | JValue.jbool false, d, tail, _, _ => by
    simp only [prettyValue, preKeysV]
    rw [keyScan_noquote_append _ _ (by decide), List.nil_append]
  | JValue.jnum lexeme, d, tail, hwf, _ => by
    simp only [prettyValue, preKeysV]
    obtain ⟨-, hnp⟩ := parseNumber_spec _ _ _ hwf
    rw [keyScan_noquote_append _ _ (numParts_no_quote _ hnp), List.nil_append]
  | JValue.jstr s, d, tail, _, hnc => by
    simp only [prettyValue, preKeysV]
    rw [List.cons_append, List.append_assoc, List.singleton_append]
    rw [keyScan_quote_nonkey _ _ _ (parseStringLit_complete s.data tail) hnc,
      List.nil_append]
  | JValue.jarr JItems.inil, d, tail, _, _ => by
    simp only [prettyValue, preKeysV, preKeysI]
    rw [show (['[', ']'] : List Char) ++ tail = '[' :: ']' :: tail from rfl]
    rw [keyScan_cons_other _ _ (by decide), keyScan_cons_other _ _ (by decide),
      List.nil_append]
  | JValue.jarr (JItems.icons v r), d, tail, hwf, hnc => by
    obtain ⟨hwv, hwr⟩ := hwf
    simp only [prettyValue, preKeysV, preKeysI, List.cons_append, List.append_assoc,
      List.singleton_append, List.nil_append]
    rw [keyScan_cons_other _ _ (by decide), keyScan_cons_other _ _ (by decide),
      keyScan_indent]
    rw [keyScan_prettyV v (d + 1) _ hwv
      (notColon_itemsRest r (d + 1) _ (notColon_close d ']' tail (by decide) (by decide)))]
    rw [keyScan_prettyIR r (d + 1) _ hwr (notColon_close d ']' tail (by decide) (by decide))]
    rw [keyScan_cons_other _ _ (by decide), keyScan_indent,
      keyScan_cons_other _ _ (by decide)]
  | JValue.jobj JMembers.mnil, d, tail, _, _ => by
    simp only [prettyValue, preKeysV, preKeysM]
    rw [show (['\x7b', '\x7d'] : List Char) ++ tail = '\x7b' :: '\x7d' :: tail from rfl]
    rw [keyScan_cons_other _ _ (by decide), keyScan_cons_other _ _ (by decide),
      List.nil_append]
  | JValue.jobj (JMembers.mcons k v r), d, tail, hwf, hnc => by
    obtain ⟨hwv, hwr⟩ := hwf.2
    simp only [prettyValue, preKeysV, preKeysM, List.cons_append, List.append_assoc,
      List.singleton_append, List.nil_append]
    rw [keyScan_cons_other _ _ (by decide), keyScan_cons_other _ _ (by decide),
      keyScan_indent]
    rw [keyScan_prettyMem k v (d + 1) _ hwv
      (notColon_membersRest r (d + 1) _ (notColon_close d '\x7d' tail (by decide) (by decide)))]
    rw [keyScan_prettyMR r (d + 1) _ hwr (notColon_close d '\x7d' tail (by decide) (by decide))]
    rw [keyScan_cons_other _ _ (by decide), keyScan_indent,
      keyScan_cons_other _ _ (by decide)]
    simp [List.append_assoc]

theorem keyScan_prettyMem : ∀ (k : String) (v : JValue) (d : Nat) (z : List Char), WFv v →
    ¬ (wsSkip z).head? = some ':' →
    keyScan (prettyMember k v d ++ z) = (k :: preKeysV v) ++ keyScan z
  | k, v, d, z, hwv, hz => by
    simp only [prettyMember, List.cons_append, List.append_assoc, List.nil_append]
    have hsl : parseStringLit (escChars k.data ++ ('"' :: ':' :: ' ' ::
        (prettyValue v d ++ z))) = some (k.data, ':' :: ' ' :: (prettyValue v d ++ z)) :=
      parseStringLit_complete k.data _
    rw [keyScan_quote_key _ _ _ hsl (by rw [wsSkip_cons_notWs _ _ (by decide)]; rfl)]
    rw [keyScan_cons_other _ _ (by decide), keyScan_cons_other _ _ (by decide)]
    rw [keyScan_prettyV v d z hwv hz]

theorem keyScan_prettyMR : ∀ (ms : JMembers) (d : Nat) (z : List Char), WFm ms →
    ¬ (wsSkip z).head? = some ':' →
    keyScan (prettyMembersRest ms d ++ z) = preKeysM ms ++ keyScan z
  | JMembers.mnil, d, z, _, _ => by simp [prettyMembersRest, preKeysM]
  | JMembers.mcons k v r, d, z, hwf, hz => by
    obtain ⟨hwv, hwr⟩ := hwf
    simp only [prettyMembersRest, preKeysM, List.cons_append, List.append_assoc]
    rw [keyScan_cons_other _ _ (by decide), keyScan_cons_other _ _ (by decide),
      keyScan_indent]
    rw [keyScan_prettyMem k v d _ hwv (notColon_membersRest r d z hz)]
    rw [keyScan_prettyMR r d z hwr hz]
    simp [List.append_assoc]

theorem keyScan_prettyIR : ∀ (it : JItems) (d : Nat) (z : List Char), WFi it →
    ¬ (wsSkip z).head? = some ':' →
    keyScan (prettyItemsRest it d ++ z) = preKeysI it ++ keyScan z
  | JItems.inil, d, z, _, _ => by simp [prettyItemsRest, preKeysI]
  | JItems.icons v r, d, z, hwf, hz => by
    obtain ⟨hwv, hwr⟩ := hwf
    simp only [prettyItemsRest, preKeysI, List.cons_append, List.append_assoc]
    rw [keyScan_cons_other _ _ (by decide), keyScan_cons_other _ _ (by decide),
      keyScan_indent]
    rw [keyScan_prettyV v d _ hwv (notColon_itemsRest r d z hz)]
    rw [keyScan_prettyIR r d z hwr hz]

end

/-- C6: for every string that the strict parse accepts, the re-serialized
text `format_json` produces lists its key occurrences in exactly the order
the keys appeared in the source text: the lexical key scan (string literals
followed, after optional whitespace, by `':'`, decoded) of the output
equals the key scan of the input.  The hypothesis asks that the output
carry as many key occurrences as the source — equivalently, that no single
object literal of the source repeats a key, the one case that forces an
exception: a repeated key is stored once, at its first position, so its
later occurrences are not re-emitted.  Keys shared across distinct objects,
sibling or nested, are covered. -/
theorem format_json_key_order (s : String) (v : JValue)
    (h : parseJson s = some v)
    (hlen : (keyScan (format_json s).data).length = (keyScan s.data).length) :
    keyScan (format_json s).data = keyScan s.data := by
  have hwf : WFv v := parseJson_wf s v h
  have hfj : format_json s = prettyText v := by simp [format_json, h]
  have hout : keyScan (format_json s).data = preKeysV v := by
    rw [hfj]
    show keyScan (prettyValue v 0) = preKeysV v
    rw [← List.append_nil (prettyValue v 0),
      keyScan_prettyV v 0 [] hwf (by simp [wsSkip]), keyScan_nil, List.append_nil]
  unfold parseJson at h
  split at h
  · rename_i v2 rest hpv
    split_ifs at h with hr
    · simp only [Option.some.injEq] at h
      replace h := h.symm
      subst h
      have hnc : ¬ (wsSkip rest).head? = some ':' := by rw [hr]; simp
      obtain ⟨ks, hks, hle, himp⟩ := (keyScan_parse (s.data.length + 1)).1 _ _ _ hpv hnc
      have hrest : keyScan rest = [] := keyScan_ws_nil rest hr
      have hsrc : keyScan s.data = ks := by
        rw [keyScan_wsSkip s.data, hks, hrest, List.append_nil]
      have hlen2 : ks.length = (preKeysV v).length := by
        rw [← hsrc]
        rw [← hlen, hout]
      rw [hout, hsrc, himp hlen2]
  · simp at h

theorem format_json_key_order_witness :
    parseJson (prettyText (JValue.jobj (JMembers.mcons "b" (JValue.jnum "1")
        (JMembers.mcons "a" (JValue.jnum "2") JMembers.mnil)))) =
      some (JValue.jobj (JMembers.mcons "b" (JValue.jnum "1")
        (JMembers.mcons "a" (JValue.jnum "2") JMembers.mnil))) ∧
    (keyScan (format_json (prettyText (JValue.jobj (JMembers.mcons "b" (JValue.jnum "1")
        (JMembers.mcons "a" (JValue.jnum "2") JMembers.mnil))))).data).length =
      (keyScan (prettyText (JValue.jobj (JMembers.mcons "b" (JValue.jnum "1")
        (JMembers.mcons "a" (JValue.jnum "2") JMembers.mnil)))).data).length ∧
    keyScan (format_json (prettyText (JValue.jobj (JMembers.mcons "b" (JValue.jnum "1")
        (JMembers.mcons "a" (JValue.jnum "2") JMembers.mnil))))).data =
      keyScan (prettyText (JValue.jobj (JMembers.mcons "b" (JValue.jnum "1")
        (JMembers.mcons "a" (JValue.jnum "2") JMembers.mnil)))).data := by
  have hwf : WFv (JValue.jobj (JMembers.mcons "b" (JValue.jnum "1")
      (JMembers.mcons "a" (JValue.jnum "2") JMembers.mnil))) := by
    refine ⟨by decide, ⟨?_, ?_, trivial⟩⟩
    · show parseNumber ['1'] = some (['1'], [])
      rfl
    · show parseNumber ['2'] = some (['2'], [])
      rfl
  have h1 := parseJson_prettyText _ hwf
  have hfj : format_json (prettyText (JValue.jobj (JMembers.mcons "b" (JValue.jnum "1")
      (JMembers.mcons "a" (JValue.jnum "2") JMembers.mnil)))) =
      prettyText (JValue.jobj (JMembers.mcons "b" (JValue.jnum "1")
        (JMembers.mcons "a" (JValue.jnum "2") JMembers.mnil))) := by
    simp [format_json, h1]
  have hlen : (keyScan (format_json (prettyText (JValue.jobj (JMembers.mcons "b"
      (JValue.jnum "1") (JMembers.mcons "a" (JValue.jnum "2")
        JMembers.mnil))))).data).length =
      (keyScan (prettyText (JValue.jobj (JMembers.mcons "b" (JValue.jnum "1")
        (JMembers.mcons "a" (JValue.jnum "2") JMembers.mnil)))).data).length := by
    rw [hfj]
  exact ⟨h1, hlen, format_json_key_order _ _ h1 hlen⟩

theorem splitOnceGo_spec (cs : List Char) :
    splitOnceGo cs = if ':' ∈ cs then
      some (cs.takeWhile (fun c => ¬ c = ':'), (cs.dropWhile (fun c => ¬ c = ':')).tail)
    else none := by
  induction cs with
  | nil => simp [splitOnceGo]
  | cons c rest ih =>
    simp only [splitOnceGo]
    by_cases hc : c = ':'
    · subst hc
      rw [if_pos (by simp)]
      simp [List.takeWhile_cons, List.dropWhile_cons]
    · rw [if_neg hc, ih]
      by_cases hm : ':' ∈ rest
      · rw [if_pos hm, if_pos (by simp [hm])]
        simp [List.takeWhile_cons, List.dropWhile_cons, hc, Ne.symm hc]
      · rw [if_neg hm, if_neg (by simp [hm, Ne.symm hc])]
        simp

/-- C4: for every input that fails the strict JSON parse, `format_json`
returns the input completely unchanged. -/
theorem format_json_passthrough (s : String) (h : parseJson s = none) : format_json s = s := by
  simp [format_json, h]

theorem format_json_passthrough_witness :
    parseJson "hello" = none ∧ format_json "hello" = "hello" :=
  ⟨rfl, format_json_passthrough "hello" rfl⟩

/-- C5: the pretty-printer is idempotent:
`format_json (format_json x) = format_json x` for every string `x`. -/
theorem format_json_idempotent (s : String) : format_json (format_json s) = format_json s := by
  cases hp : parseJson s with
  | none => simp [format_json, hp]
  | some v =>
    have hwf := parseJson_wf s v hp
    have hrt := parseJson_prettyText v hwf
    simp [format_json, hp, hrt]

/-- C1: concatenating the texts of all spans emitted by `json_to_spans`, in
order, yields exactly the text the scanner consumed, which is
`format_json s`; when `s` fails the strict JSON parse this equals `s`
itself (including the empty string, where the fallback span carries the
original input). -/
theorem json_to_spans_lossless (s : String) :
    spansText (json_to_spans s) = format_json s ∧
      (parseJson s = none → spansText (json_to_spans s) = s) := by
  have hmain : spansText (json_to_spans s) = format_json s := by
    unfold json_to_spans
    by_cases he : (jsonSpansGo (format_json s).data []).isEmpty
    · have hdata := jsonSpansGo_data (format_json s).data []
      rw [List.isEmpty_iff] at he
      rw [he] at hdata
      simp only [spansData, List.flatMap_nil, List.nil_append] at hdata
      have hfj : format_json s = "" := by
        have h2 : (format_json s).data = ([] : List Char) := hdata.symm
        have h3 := congrArg String.mk h2
        exact h3
      have hs : s = "" := by
        by_cases hp : ∃ v, parseJson s = some v
        · obtain ⟨v, hv⟩ := hp
          have hpt : prettyText v = "" := by
            rw [← hfj]
            simp [format_json, hv]
          exact absurd hpt (prettyText_ne_empty v (parseJson_wf s v hv))
        · have hv : parseJson s = none := by
            cases hv2 : parseJson s with
            | none => rfl
            | some v => exact absurd ⟨v, hv2⟩ hp
          rw [← hfj]
          simp [format_json, hv]
      rw [he]
      simp only [List.isEmpty_nil, if_true]
      rw [hfj]
      simp [spansText, spansData, hs]
    · rw [if_neg (by simpa using he)]
      rw [spansText_eq_mk, jsonSpansGo_data]
      simp
  exact ⟨hmain, fun hp => by rw [hmain]; simp [format_json, hp]⟩

theorem json_to_spans_lossless_witness :
    parseJson "x]" = none ∧ spansText (json_to_spans "x]") = "x]" :=
  ⟨rfl, (json_to_spans_lossless "x]").2 rfl⟩

/-- C2: in the request built by `send_request`, a body is attached exactly
when the method is POST, PUT or PATCH and the body text is non-empty; for
GET, HEAD, DELETE and OPTIONS no body is ever attached; when attached, the
body is the spec's body text itself. -/
theorem send_request_body_rule (url : String) (method : Method) (body headers_str : String)
    (auth_type : AuthType) (auth_token auth_username auth_password : String) :
    ((send_request_built url method body headers_str auth_type auth_token auth_username
        auth_password).body ≠ none ↔
      ((method = Method.POST ∨ method = Method.PUT ∨ method = Method.PATCH) ∧ body ≠ "")) ∧
    ((method = Method.GET ∨ method = Method.HEAD ∨ method = Method.DELETE ∨
        method = Method.OPTIONS) →
      (send_request_built url method body headers_str auth_type auth_token auth_username
        auth_password).body = none) ∧
    (((method = Method.POST ∨ method = Method.PUT ∨ method = Method.PATCH) ∧ body ≠ "") →
      (send_request_built url method body headers_str auth_type auth_token auth_username
        auth_password).body = some body) := by
  unfold send_request_built attachedBody
  refine ⟨?_, ?_, ?_⟩
  · split_ifs with h
    · simp [h]
    · simp [h]
  · intro hm
    rw [if_neg ?_]
    rintro ⟨hpost, -⟩
    rcases hm with rfl | rfl | rfl | rfl <;> rcases hpost with h | h | h <;>
      exact absurd h (by decide)
  · intro h
    rw [if_pos h]

theorem send_request_body_rule_witness :
    (Method.GET = Method.GET ∨ Method.GET = Method.HEAD ∨ Method.GET = Method.DELETE ∨
      Method.GET = Method.OPTIONS) ∧
    (send_request_built "https://x.test" Method.GET "payload" "" AuthType.None "" "" "").body =
      none :=
  ⟨Or.inl rfl,
    (send_request_body_rule "https://x.test" Method.GET "payload" "" AuthType.None
      "" "" "").2.1 (Or.inl rfl)⟩

/-- C3 counterexample: in `send_request` the duration capture
(`start.elapsed()`) does not happen after the body read
(`response.text().await`); the claim that the measurement is taken after
the full body has been read is false of the statement order of the code. -/
theorem send_request_duration_not_after_body :
    ¬ happensBefore SendEvent.readBodyText SendEvent.captureDuration := by decide

/-- C3 amended: the duration is measured from immediately before request
construction (the instant is captured first), and the measurement is taken
immediately after `send()` resolves — after the response status and headers
arrive but before the body is read into memory. -/
theorem send_request_duration_window :
    happensBefore SendEvent.captureStart SendEvent.buildVerb ∧
    happensBefore SendEvent.sendAwait SendEvent.captureDuration ∧
    happensBefore SendEvent.captureDuration SendEvent.readBodyText := by decide

/-- C8: a `-d`/`--data`/`--data-raw`/`--data-binary` flag with a following
value token sets the body to that raw value and, when the method is still
`GET` at that point, promotes it to `POST`; a method other than `GET` is
left unchanged (the update keeps it). -/
theorem parse_curl_data_flag (t v : String) (rest : List String) (st : CurlState)
    (h : isDataFlag t) :
    parse_curl_scan (t :: v :: rest) st =
      parse_curl_scan rest
        { st with body := v,
                  method := if st.method = Method.GET then Method.POST else st.method } := by
  have h1 : ¬ (t = "-X" ∨ t = "--request") := by
    rcases h with rfl | rfl | rfl | rfl <;> decide
  have h2 : ¬ (t = "-H" ∨ t = "--header") := by
    rcases h with rfl | rfl | rfl | rfl <;> decide
  simp only [parse_curl_scan]
  rw [if_neg h1, if_neg h2, if_pos h]

theorem parse_curl_data_flag_witness :
    isDataFlag "-d" ∧
    parse_curl_scan ["-d", "foo=bar"] curlInit =
      { url := "", method := Method.POST, headers := [], body := "foo=bar", auth := none } := by
  refine ⟨Or.inl rfl, ?_⟩
  have h := parse_curl_data_flag "-d" "foo=bar" [] curlInit (Or.inl rfl)
  rw [h]
  rfl

theorem jsonSpansGo_keyword_partial_go (c : Char) (cs cur got rest2 : List Char)
    (hc : c = 't' ∨ c = 'f' ∨ c = 'n')
    (hm : munchExpected (if c = 't' then "rue".data else if c = 'f' then "alse".data
      else "ull".data) cs = (got, rest2))
    (hpart : ¬ (c :: got = "true".data ∨ c :: got = "false".data ∨ c :: got = "null".data)) :
    jsonSpansGo (c :: cs) cur =
      flushCurrent cur ++ ⟨String.mk (c :: got), SpanClass.plain⟩ :: jsonSpansGo rest2 [] := by
  have hq : ¬ c = '"' := by rcases hc with rfl | rfl | rfl <;> decide
  have hd : ¬ (c.isDigit || c = '-') = true := by rcases hc with rfl | rfl | rfl <;> decide
  have ht : (c = 't' || c = 'f' || c = 'n') = true := by
    rcases hc with rfl | rfl | rfl <;> simp
  simp only [jsonSpansGo]
  rw [if_neg hq, if_neg hd, if_pos ht, hm]
  rw [if_neg (by
    simp only [Bool.or_eq_true, decide_eq_true_eq]
    rintro ((h1 | h2) | h3)
    · exact hpart (Or.inl h1)
    · exact hpart (Or.inr (Or.inl h2))
    · exact hpart (Or.inr (Or.inr h3)))]

theorem applyHeaderToken_url (st : CurlState) (header : String) :
    (applyHeaderToken st header).url = st.url := by
  simp only [applyHeaderToken]
  repeat' split
  all_goals rfl

theorem applyUserToken_url (st : CurlState) (creds : String) :
    (applyUserToken st creds).url = st.url := by
  simp only [applyUserToken]
  split
  all_goals rfl

theorem urlToken_ne_empty (t : String)
    (h : strStartsWith t ("http://") = true ∨ strStartsWith t ("https://") = true) :
    ¬ t = "" := by
  intro he
  subst he
  rcases h with h | h <;> simp [strStartsWith, List.isPrefixOf] at h

theorem scan_url_empty : ∀ (toks : List String) (st : CurlState),
    ((parse_curl_scan toks st).url = "" ↔ st.url = "" ∧ scanSeesUrl toks = false)
  | [], st => by
    simp [parse_curl_scan, scanSeesUrl]
  | [token], st => by
    simp only [parse_curl_scan, scanSeesUrl]
    by_cases h1 : token = "-X" ∨ token = "--request"
    · have hf : isFlagToken token := by
        rcases h1 with rfl | rfl
        · exact Or.inl rfl
        · exact Or.inr (Or.inl rfl)
      rw [if_pos h1, if_pos hf]
      simp
    · by_cases h2 : token = "-H" ∨ token = "--header"
      · have hf : isFlagToken token := by
          rcases h2 with rfl | rfl
          · exact Or.inr (Or.inr (Or.inl rfl))
          · exact Or.inr (Or.inr (Or.inr (Or.inl rfl)))
        rw [if_neg h1, if_pos h2, if_pos hf]
        simp
      · by_cases h3 : isDataFlag token
        · have hf : isFlagToken token := Or.inr (Or.inr (Or.inr (Or.inr (Or.inl h3))))
          rw [if_neg h1, if_neg h2, if_pos h3, if_pos hf]
          simp
        · by_cases h4 : token = "-u" ∨ token = "--user"
          · have hf : isFlagToken token := by
              rcases h4 with rfl | rfl
              · exact Or.inr (Or.inr (Or.inr (Or.inr (Or.inr (Or.inl rfl)))))
              · exact Or.inr (Or.inr (Or.inr (Or.inr (Or.inr (Or.inr rfl)))))
            rw [if_neg h1, if_neg h2, if_neg h3, if_pos h4, if_pos hf]
            simp
          · have hnf : ¬ isFlagToken token := by
              rintro (h | h | h | h | hd | h | h)
              · exact h1 (Or.inl h)
              · exact h1 (Or.inr h)
              · exact h2 (Or.inl h)
              · exact h2 (Or.inr h)
              · exact h3 hd
              · exact h4 (Or.inl h)
              · exact h4 (Or.inr h)
            rw [if_neg h1, if_neg h2, if_neg h3, if_neg h4, if_neg hnf]
            by_cases h5 : strStartsWith token ("http://") = true ∨
                strStartsWith token ("https://") = true
            · rw [if_pos h5]
              have hne := urlToken_ne_empty token h5
              have hb : (strStartsWith token ("http://") ||
                  strStartsWith token ("https://")) = true := by
                rcases h5 with h | h <;> simp [h]
              simp only [parse_curl_scan, hb, Bool.true_or, scanSeesUrl]
              constructor
              · intro hurl
                exact absurd hurl hne
              · rintro ⟨-, hfalse⟩
                simp at hfalse
            · rw [if_neg h5]
              have hb : (strStartsWith token ("http://") ||
                  strStartsWith token ("https://")) = false := by
                simp only [not_or, Bool.not_eq_true] at h5
                simp [h5.1, h5.2]
              simp [parse_curl_scan, scanSeesUrl, hb]
  | token :: value :: rest2, st => by
    simp only [parse_curl_scan, scanSeesUrl]
    by_cases h1 : token = "-X" ∨ token = "--request"
    · have hf : isFlagToken token := by
        rcases h1 with rfl | rfl
        · exact Or.inl rfl
        · exact Or.inr (Or.inl rfl)
      rw [if_pos h1, if_pos hf]
      exact scan_url_empty rest2 _
    · by_cases h2 : token = "-H" ∨ token = "--header"
      · have hf : isFlagToken token := by
          rcases h2 with rfl | rfl
          · exact Or.inr (Or.inr (Or.inl rfl))
          · exact Or.inr (Or.inr (Or.inr (Or.inl rfl)))
        rw [if_neg h1, if_pos h2, if_pos hf]
        rw [scan_url_empty rest2 _, applyHeaderToken_url]
      · by_cases h3 : isDataFlag token
        · have hf : isFlagToken token := Or.inr (Or.inr (Or.inr (Or.inr (Or.inl h3))))
          rw [if_neg h1, if_neg h2, if_pos h3, if_pos hf]
          exact scan_url_empty rest2 _
        · by_cases h4 : token = "-u" ∨ token = "--user"
          · have hf : isFlagToken token := by
              rcases h4 with rfl | rfl
              · exact Or.inr (Or.inr (Or.inr (Or.inr (Or.inr (Or.inl rfl)))))
              · exact Or.inr (Or.inr (Or.inr (Or.inr (Or.inr (Or.inr rfl)))))
            rw [if_neg h1, if_neg h2, if_neg h3, if_pos h4, if_pos hf]
            rw [scan_url_empty rest2 _, applyUserToken_url]
          · have hnf : ¬ isFlagToken token := by
              rintro (h | h | h | h | hd | h | h)
              · exact h1 (Or.inl h)
              · exact h1 (Or.inr h)
              · exact h2 (Or.inl h)
              · exact h2 (Or.inr h)
              · exact h3 hd
              · exact h4 (Or.inl h)
              · exact h4 (Or.inr h)
            rw [if_neg h1, if_neg h2, if_neg h3, if_neg h4, if_neg hnf]
            by_cases h5 : strStartsWith token ("http://") = true ∨
                strStartsWith token ("https://") = true
            · rw [if_pos h5]
              have hne := urlToken_ne_empty token h5
              have hb : (strStartsWith token ("http://") ||
                  strStartsWith token ("https://")) = true := by
                rcases h5 with h | h <;> simp [h]
              rw [scan_url_empty (value :: rest2) _]
              simp only [hb, Bool.true_or]
              constructor
              · rintro ⟨hurl, -⟩
                exact absurd hurl hne
              · rintro ⟨-, hfalse⟩
                simp at hfalse
            · rw [if_neg h5]
              have hb : (strStartsWith token ("http://") ||
                  strStartsWith token ("https://")) = false := by
                simp only [not_or, Bool.not_eq_true] at h5
                simp [h5.1, h5.2]
              rw [scan_url_empty (value :: rest2) st]
              simp [hb]

/-- C7 counterexample: the input `curl -d https://x.test` begins (after
trimming) with the literal token `curl` and contains a token beginning with
`https://`, yet `parse_curl` returns nothing: the URL-shaped token is
consumed as the value of the `-d` flag and is never examined as a URL. -/
theorem parse_curl_url_token_consumed :
    parse_curl "curl -d https://x.test" = none ∧
      strStartsWith (rustTrim "curl -d https://x.test") ("curl") = true ∧
      (curlTokens (rustTrim "curl -d https://x.test")).any
        (fun t => strStartsWith t ("http://") || strStartsWith t ("https://")) = true :=
  ⟨rfl, rfl, rfl⟩

/-- C7 amended: `parse_curl` returns nothing exactly when the trimmed input
does not begin with `curl`, or when the flag scan reaches no token beginning
with `http://` or `https://` in examining position — tokens consumed as the
value of a preceding recognized flag are skipped and do not count; in every
other case it returns a populated partial spec. -/
theorem parse_curl_none_iff (input : String) :
    parse_curl input = none ↔
      ¬ strStartsWith (rustTrim input) ("curl") = true ∨
        scanSeesUrl (curlTokens (rustTrim input)) = false := by
  simp only [parse_curl]
  by_cases hc : strStartsWith (rustTrim input) ("curl") = true
  · rw [if_neg (fun h => h hc)]
    simp only [hc, not_true_eq_false, false_or]
    by_cases hu : (parse_curl_scan (curlTokens (rustTrim input)) curlInit).url = ""
    · rw [if_pos hu]
      have h2 := (scan_url_empty (curlTokens (rustTrim input)) curlInit).mp hu
      simp [h2.2]
    · rw [if_neg hu]
      constructor
      · intro h
        simp at h
      · intro h
        exact absurd ((scan_url_empty _ curlInit).mpr ⟨rfl, h⟩) hu
  · rw [if_pos hc]
    simp [hc]

/-- C9 counterexample: on input `tx` the scanner emits the partially
consumed keyword character `t` immediately as its own plain span, followed
by a separate plain span `x`; the characters are not folded into a single
pending plain-text accumulation. -/
theorem json_to_spans_partial_keyword_spans :
    json_to_spans "tx" = [⟨"t", SpanClass.plain⟩, ⟨"x", SpanClass.plain⟩] ∧
      json_to_spans "tx" ≠ [⟨"tx", SpanClass.plain⟩] := by
  have hspans : jsonSpansGo ['t', 'x'] [] = [⟨"t", SpanClass.plain⟩, ⟨"x", SpanClass.plain⟩] := by
    rw [jsonSpansGo_keyword_partial_go 't' ['x'] [] [] ['x'] (Or.inl rfl) rfl (by decide)]
    simp only [flushCurrent, List.isEmpty_nil, if_true, List.nil_append]
    congr 1
    rw [show jsonSpansGo ['x'] [] = jsonSpansGo [] ['x'] from by
      simp [jsonSpansGo, isNumCont]]
    simp [jsonSpansGo, flushCurrent]
  have hall : json_to_spans "tx" = [⟨"t", SpanClass.plain⟩, ⟨"x", SpanClass.plain⟩] := by
    unfold json_to_spans
    rw [show (format_json "tx").data = ['t', 'x'] from rfl, hspans]
    simp
  refine ⟨hall, ?_⟩
  intro h
  rw [hall] at h
  simp at h

/-- C9 amended: when a keyword candidate triggered by `t`, `f` or `n` stops
matching before completing `true`, `false` or `null`, the partially
consumed characters are emitted immediately as their own plain-classified
span (preceded by a flush of the pending plain buffer), not folded into the
pending buffer; only a fully matched keyword produces a keyword-classified
span. -/
theorem jsonSpansGo_keyword_partial (c : Char) (cs cur got rest2 : List Char)
    (hc : c = 't' ∨ c = 'f' ∨ c = 'n')
    (hm : munchExpected (if c = 't' then "rue".data else if c = 'f' then "alse".data
      else "ull".data) cs = (got, rest2))
    (hpart : ¬ (c :: got = "true".data ∨ c :: got = "false".data ∨ c :: got = "null".data)) :
    jsonSpansGo (c :: cs) cur =
      flushCurrent cur ++ ⟨String.mk (c :: got), SpanClass.plain⟩ :: jsonSpansGo rest2 [] :=
  jsonSpansGo_keyword_partial_go c cs cur got rest2 hc hm hpart

theorem jsonSpansGo_keyword_partial_witness :
    jsonSpansGo ['t', 'x'] [] =
      flushCurrent [] ++ ⟨String.mk ('t' :: []), SpanClass.plain⟩ :: jsonSpansGo ['x'] [] :=
  jsonSpansGo_keyword_partial 't' ['x'] [] [] ['x'] (Or.inl rfl) rfl (by decide)

theorem splitOnceColon_spec (line : String) :
    splitOnceColon line = if ':' ∈ line.data then
      some (String.mk (line.data.takeWhile (fun c => ¬ c = ':')),
        String.mk ((line.data.dropWhile (fun c => ¬ c = ':')).tail))
    else none := by
  unfold splitOnceColon
  rw [splitOnceGo_spec]
  by_cases h : ':' ∈ line.data
  · rw [if_pos h, if_pos h]
    rfl
  · rw [if_neg h, if_neg h]
    rfl

theorem lineHeaders_go (ls : List String) :
    ls.filterMap
        (fun line => Option.map (fun kv => (rustTrim kv.1, rustTrim kv.2))
          (splitOnceColon line)) =
      (ls.filter (fun line => line.data.contains ':')).map
        (fun line => (rustTrim (String.mk (line.data.takeWhile (fun c => ¬ c = ':'))),
          rustTrim (String.mk ((line.data.dropWhile (fun c => ¬ c = ':')).tail)))) := by
  induction ls with
  | nil => rfl
  | cons line rest ih =>
    simp only [List.filterMap_cons, List.filter_cons]
    rw [splitOnceColon_spec line]
    by_cases h : ':' ∈ line.data
    · have hc : line.data.contains ':' = true := by simpa using h
      rw [if_pos h, if_pos hc]
      simp [ih]
    · have hc : ¬ line.data.contains ':' = true := by simpa using h
      rw [if_neg h, if_neg hc]
      simp [ih]

theorem lineHeaders_split (hs : String) :
    lineHeaders hs =
      ((rustLines hs).filter (fun line => line.data.contains ':')).map
        (fun line => (rustTrim (String.mk (line.data.takeWhile (fun c => ¬ c = ':'))),
          rustTrim (String.mk ((line.data.dropWhile (fun c => ¬ c = ':')).tail)))) := by
  unfold lineHeaders
  exact lineHeaders_go (rustLines hs)

/-- C10: every line of the headers text without a `':'` contributes no
header to the outgoing request, and every line containing a `':'`
contributes exactly one header whose name is the text before the first
`':'` trimmed and whose value is the remainder trimmed; the outgoing
headers are the auth-derived header followed by exactly these. -/
theorem send_request_header_lines (url : String) (method : Method)
    (body headers_str : String) (auth_type : AuthType)
    (auth_token auth_username auth_password : String) :
    (send_request_built url method body headers_str auth_type auth_token auth_username
        auth_password).headers =
      authHeaders auth_type auth_token auth_username auth_password ++
        ((rustLines headers_str).filter (fun line => line.data.contains ':')).map
          (fun line => (rustTrim (String.mk (line.data.takeWhile (fun c => ¬ c = ':'))),
            rustTrim (String.mk ((line.data.dropWhile (fun c => ¬ c = ':')).tail)))) := by
  show authHeaders auth_type auth_token auth_username auth_password ++
      lineHeaders headers_str = _
  rw [lineHeaders_split]

end BadGateway
